import Mathlib

/-!
Verification of the summarizable key-value store
(`packages/runtime/summarizable-object/src/summarizableObject.ts`).

The store keeps an insertion-ordered mapping from string keys to JavaScript
runtime values, serializes it with `JSON.stringify` into a single-blob tree
on `snapshot()`, and rebuilds it with `JSON.parse` over a base64/UTF-8
transport decoding on `loadCore`.  The embedding below models:

  * `JsVal` - the JavaScript runtime values relevant to the store: the JSON
    value model (numbers restricted to integers; the store's example usage
    and all claims use integer numbers only) plus `func`, a non-serializable
    value (a function reference).
  * `stringifyVal` - `JSON.stringify` (no extra whitespace, JS string
    escaping, function-valued object properties omitted, functions in
    arrays serialized as `null`, object keys in the mapping's insertion
    order).
  * `parseVal` / `JSONparse` - `JSON.parse` restricted to the grammar the
    store actually produces and consumes: integer numbers (no fraction or
    exponent), no inter-token whitespace, `\uXXXX` escapes limited to
    non-surrogate code points.  Duplicate object keys collapse with
    last-value-wins at the first occurrence's position, as in JavaScript.
  * `utf8Encode`/`utf8Decode` and `base64Encode`/`base64Decode` - the
    byte-level transport encoding used by the storage layer
    (`fromBase64ToUtf8` is from `fluid-common-utils`, outside `src/`; it is
    modelled as a strict symmetric base64-of-UTF-8 codec per the spec's
    "byte-safe text transport encoding ... decoded symmetrically").
  * `SummarizableObject` with `get`, `set`, `snapshot`, `loadCore`,
    `processCore` translated clause by clause from the source file.
-/

/-- JavaScript runtime values as relevant to the store: the JSON value model
together with `func`, standing for a value that is not JSON-representable
(e.g. a function reference).  Integral numbers are `num`; a number literal
with a fractional or exponent part parses to `numFrac` carrying the literal
text verbatim - in JavaScript such a value is an IEEE double, whose
floating-point value semantics is not modelled; `numFrac` values lie
outside the `jsonable` fragment over which the round-trip claims range. -/
inductive JsVal where
  | null
  | bool (b : Bool)
  | num (n : Int)
  | numFrac (lexeme : String)
  | str (s : String)
  | arr (elements : List JsVal)
  | obj (fields : List (String × JsVal))
  | func

/-- Is this value a function reference?  `JSON.stringify` omits
function-valued object properties. -/
def JsVal.isFunc : JsVal → Bool
  | .func => true
  | _ => false

/-- Boolean key-uniqueness check for association-list keys. -/
def keysNodup : List String → Bool
  | [] => true
  | k :: ks => !(ks.contains k) && keysNodup ks

mutual

/-- A value is in the modelled JSON-representable fragment: contains no
function reference and no `numFrac` (whose IEEE-double semantics is not
modelled), and every object inside it has pairwise-distinct keys (a
JavaScript object can never hold two properties with the same name). -/
def JsVal.jsonable : JsVal → Bool
  | .null => true
  | .bool _ => true
  | .num _ => true
  | .numFrac _ => false
  | .str _ => true
  | .func => false
  | .arr elements => jsonableList elements
  | .obj fields => keysNodup (fields.map Prod.fst) && jsonableFields fields

def jsonableList : List JsVal → Bool
  | [] => true
  | v :: vs => v.jsonable && jsonableList vs

def jsonableFields : List (String × JsVal) → Bool
  | [] => true
  | kv :: fs => kv.2.jsonable && jsonableFields fs

end

/-- `Map.prototype.set` / plain-object property assignment: overwrite the
value in place if the key is present (keeping its position), else append. -/
def mapSet (l : List (String × JsVal)) (key : String) (val : JsVal) :
    List (String × JsVal) :=
  match l with
  | [] => [(key, val)]
  | (k, v) :: rest => if k = key then (k, val) :: rest else (k, v) :: mapSet rest key val

/-- `Map.prototype.get`: the value stored at `key`, or `none` (JavaScript
`undefined`) when the key was never set. -/
def mapGet : List (String × JsVal) → String → Option JsVal
  | [], _ => none
  | (k, v) :: rest, key => if k = key then some v else mapGet rest key

/-- JavaScript object construction from a field list: later duplicate keys
overwrite the value kept at the first occurrence's position.  This is what
`JSON.parse` does with duplicate keys in object text. -/
def dedupFields (fs : List (String × JsVal)) : List (String × JsVal) :=
  fs.foldl (fun d kv => mapSet d kv.1 kv.2) []

/-- The decimal digit character for `n < 10`. -/
def digitChar (n : Nat) : Char := Char.ofNat (48 + n)

/-- Fuel-driven decimal printing of a natural number (most significant digit
first); the fuel makes the definition structurally recursive so concrete
values reduce inside the kernel. -/
def natStrAux : Nat → Nat → List Char
  | 0, _ => []
  | fuel + 1, n =>
    if n < 10 then [digitChar n]
    else natStrAux fuel (n / 10) ++ [digitChar (n % 10)]

/-- Decimal digits of a natural number, as `String(n)` produces them. -/
def natStr (n : Nat) : List Char := natStrAux (n + 1) n

/-- Decimal printing of an integer, as `JSON.stringify` prints an integral
JavaScript number. -/
def intStr : Int → List Char
  | .ofNat m => natStr m
  | .negSucc m => '-' :: natStr (m + 1)

/-- Lower-case hexadecimal digit for `n < 16` (as in `\u00xx` escapes). -/
def hexDigit (n : Nat) : Char := "0123456789abcdef".data.getD n '?'

/-- Value of a hexadecimal digit character. -/
def hexVal (c : Char) : Option Nat :=
  if c.isDigit then some (c.toNat - 48)
  else if 'a' ≤ c ∧ c ≤ 'f' then some (c.toNat - 87)
  else if 'A' ≤ c ∧ c ≤ 'F' then some (c.toNat - 55)
  else none

/-- Decode four hex digits into their 16-bit value; `none` if any
character is not a hex digit. -/
def hexQuad (a b c d : Char) : Option Nat :=
  match hexVal a, hexVal b, hexVal c, hexVal d with
  | some x, some y, some z, some w => some (((x * 16 + y) * 16 + z) * 16 + w)
  | _, _, _, _ => none

/-- JSON string escaping of one character, following `JSON.stringify`:
quote, backslash and the five short control escapes use two-character
escapes, all other control characters use `\u00xx`, everything else is
emitted verbatim. -/
def escapeChar (c : Char) : List Char :=
  if c = '"' then ['\\', '"']
  else if c = '\\' then ['\\', '\\']
  else if c = '\x08' then ['\\', 'b']
  else if c = '\x09' then ['\\', 't']
  else if c = '\x0a' then ['\\', 'n']
  else if c = '\x0c' then ['\\', 'f']
  else if c = '\x0d' then ['\\', 'r']
  else if c.toNat < 32 then ['\\', 'u', '0', '0', hexDigit (c.toNat / 16), hexDigit (c.toNat % 16)]
  else [c]

def escapeList : List Char → List Char
  | [] => []
  | c :: cs => escapeChar c ++ escapeList cs

/-- A JSON string literal: quote, escaped characters, quote. -/
def strLitChars (l : List Char) : List Char := '"' :: (escapeList l ++ ['"'])

/-- Decoding of an unescaped character following a backslash. -/
def unescapeChar : Char → Option Char
  | '"' => some '"'
  | '\\' => some '\\'
  | '/' => some '/'
  | 'b' => some '\x08'
  | 'f' => some '\x0c'
  | 'n' => some '\x0a'
  | 'r' => some '\x0d'
  | 't' => some '\x09'
  | _ => none

/-- Is this one of JSON's four whitespace characters (space, tab, line
feed, carriage return)? -/
def isWs (c : Char) : Bool := c = ' ' || c = '\x09' || c = '\x0a' || c = '\x0d'

/-- Skip leading JSON whitespace, as `JSON.parse` does between tokens. -/
def skipWs : List Char → List Char
  | [] => []
  | c :: cs => if isWs c then skipWs cs else c :: cs

mutual

/-- Parse the body of a JSON string literal (after the opening quote) up to
and including the closing quote; returns the decoded characters and the
rest of the input.  Escape sequences are decoded as `JSON.parse` does; see
`parseUEscape` for `\uXXXX`. -/
def parseStrChars : List Char → Option (List Char × List Char)
  | [] => none
  | c :: cs =>
    if c = '"' then some ([], cs)
    else if c = '\\' then
      match cs with
      | [] => none
      | e :: cs2 =>
        if e = 'u' then parseUEscape cs2
        else
          match unescapeChar e with
          | some u => (parseStrChars cs2).map (fun p => (u :: p.1, p.2))
          | none => none
    else if c.toNat < 32 then none
    else (parseStrChars cs).map (fun p => (c :: p.1, p.2))

/-- Decode a `\uXXXX` escape (the input starts right after the `u`).
Non-surrogate code points are accepted directly; a high-surrogate escape
must be followed by a low-surrogate escape (see `parseLowSurrogate`), as
in `JSON.parse`.  An unpaired surrogate escape is rejected: in JavaScript
it would produce a lone-surrogate string, which no Lean `String` can
represent (and which the store's printer never emits). -/
def parseUEscape : List Char → Option (List Char × List Char)
  | h1 :: h2 :: h3 :: h4 :: cs3 =>
    match hexQuad h1 h2 h3 h4 with
    | some n =>
      if n < 55296 ∨ 57343 < n then
        (parseStrChars cs3).map (fun p => (Char.ofNat n :: p.1, p.2))
      else if n < 56320 then parseLowSurrogate n cs3
      else none
    | none => none
  | _ => none

/-- After a high-surrogate escape with value `n`, decode the mandatory
following `\uXXXX` low-surrogate escape and combine the pair into the
supplementary-plane character, as `JSON.parse` does. -/
def parseLowSurrogate (n : Nat) : List Char → Option (List Char × List Char)
  | b1 :: b2 :: h5 :: h6 :: h7 :: h8 :: cs4 =>
    if b1 = '\\' ∧ b2 = 'u' then
      match hexQuad h5 h6 h7 h8 with
      | some m =>
        if 56320 ≤ m ∧ m < 57344 then
          (parseStrChars cs4).map
            (fun p =>
              (Char.ofNat (65536 + (n - 55296) * 1024 + (m - 56320)) :: p.1, p.2))
        else none
      | none => none
    else none
  | _ => none

end

/-- Does the input begin with a decimal digit? -/
def digitStart : List Char → Bool
  | [] => false
  | c :: _ => c.isDigit

/-- Consume leading decimal digits, accumulating their value. -/
def parseDigits : List Char → Nat → Nat × List Char
  | [], acc => (acc, [])
  | c :: cs, acc =>
    if c.isDigit then parseDigits cs (acc * 10 + (c.toNat - 48)) else (acc, c :: cs)

/-- Parse a JSON natural-number literal: either a single `0`, or a nonzero
digit followed by digits (JSON forbids leading zeros). -/
def parseNatLit : List Char → Option (Nat × List Char)
  | [] => none
  | c :: cs =>
    if c = '0' then if digitStart cs then none else some (0, cs)
    else if c.isDigit then some (parseDigits (c :: cs) 0)
    else none

/-- Parse a JSON integer literal (optional minus sign). -/
def parseIntLit : List Char → Option (Int × List Char)
  | [] => none
  | c :: cs =>
    if c = '-' then (parseNatLit cs).map (fun p => (-(p.1 : Int), p.2))
    else (parseNatLit (c :: cs)).map (fun p => ((p.1 : Int), p.2))

/-- Consume the maximal run of decimal digits. -/
def digitSpan : List Char → List Char × List Char
  | [] => ([], [])
  | c :: cs =>
    if c.isDigit then (c :: (digitSpan cs).1, (digitSpan cs).2) else ([], c :: cs)

/-- Optional JSON fraction part `.digits` (one or more digits); returns the
consumed characters and the rest. -/
def parseFrac : List Char → Option (List Char × List Char)
  | [] => some ([], [])
  | c :: cs =>
    if c = '.' then
      if digitStart cs then some ('.' :: (digitSpan cs).1, (digitSpan cs).2) else none
    else some ([], c :: cs)

/-- Optional JSON exponent part `(e|E)(+|-)?digits`; returns the consumed
characters and the rest. -/
def parseExp : List Char → Option (List Char × List Char)
  | [] => some ([], [])
  | c :: cs =>
    if c = 'e' ∨ c = 'E' then
      match cs with
      | [] => none
      | d :: ds =>
        if d = '+' ∨ d = '-' then
          if digitStart ds then some (c :: d :: (digitSpan ds).1, (digitSpan ds).2)
          else none
        else if d.isDigit then some (c :: (digitSpan (d :: ds)).1, (digitSpan (d :: ds)).2)
        else none
    else some ([], c :: cs)

/-- Parse a full JSON number literal `int frac? exp?`.  A plain integer
becomes `JsVal.num`; a literal with a fraction or exponent part is kept
verbatim as `JsVal.numFrac` (IEEE-double rounding is not modelled; the
store's printer never emits such literals). -/
def parseNumberLit (input : List Char) : Option (JsVal × List Char) :=
  match parseIntLit input with
  | none => none
  | some (n, rest1) =>
    match parseFrac rest1 with
    | none => none
    | some (fr, rest2) =>
      match parseExp rest2 with
      | none => none
      | some (ex, rest3) =>
        if fr = [] ∧ ex = [] then some (.num n, rest3)
        else some (.numFrac (String.mk (input.take (input.length - rest3.length))), rest3)

/-- Can no number literal continue here?  True when the next character is
neither a digit nor `.`, `e`, `E`. -/
def numStop : List Char → Bool
  | [] => true
  | c :: _ => !(c.isDigit || c = '.' || c = 'e' || c = 'E')

/-- Drop the comma preceding the first emitted field. -/
def dropLeadComma : List Char → List Char
  | [] => []
  | c :: l => if c = ',' then l else c :: l

mutual

/-- `JSON.stringify` of a value in array-element position: a function
reference serializes as `null` there. -/
def stringifyVal : JsVal → List Char
  | .null => "null".data
  | .bool true => "true".data
  | .bool false => "false".data
  | .num n => intStr n
  | .numFrac l => l.data
  | .str s => strLitChars s.data
  | .arr [] => ['[', ']']
  | .arr (v :: vs) => '[' :: (stringifyVal v ++ (stringifyElems vs ++ [']']))
  | .obj fields => '\x7b' :: (dropLeadComma (stringifyFields fields) ++ ['\x7d'])
  | .func => "null".data

/-- Remaining array elements, each preceded by a comma. -/
def stringifyElems : List JsVal → List Char
  | [] => []
  | v :: vs => ',' :: (stringifyVal v ++ stringifyElems vs)

/-- Object fields, each preceded by a comma; properties whose value is a
function reference are omitted entirely, as `JSON.stringify` does. -/
def stringifyFields : List (String × JsVal) → List Char
  | [] => []
  | (k, v) :: fs =>
    if v.isFunc then stringifyFields fs
    else ',' :: (strLitChars k.data ++ (':' :: (stringifyVal v ++ stringifyFields fs)))

end

mutual

/-- Size measure driving the parser's fuel. -/
def fsize : JsVal → Nat
  | .arr elements => 1 + fsizeElems elements
  | .obj fields => 1 + fsizeFields fields
  | _ => 1

def fsizeElems : List JsVal → Nat
  | [] => 0
  | v :: vs => 1 + fsize v + fsizeElems vs

def fsizeFields : List (String × JsVal) → Nat
  | [] => 0
  | kv :: fs => 1 + fsize kv.2 + fsizeFields fs

end

/-- One or more comma-separated array elements followed by `]`; each element
is parsed with `pv`, the value parser at the enclosing recursion depth. -/
def parseElems (pv : List Char → Option (JsVal × List Char)) :
    Nat → List Char → Option (List JsVal × List Char)
  | 0, _ => none
  | fuel + 1, cs =>
    match pv cs with
    | none => none
    | some (v, rest) =>
      match skipWs rest with
      | [] => none
      | d :: ds =>
        if d = ',' then
          match parseElems pv fuel (skipWs ds) with
          | none => none
          | some (vs, rest2) => some (v :: vs, rest2)
        else if d = ']' then some ([v], ds)
        else none

/-- One or more comma-separated `"key":value` fields followed by the closing
brace; each value is parsed with `pv`. -/
def parseFields (pv : List Char → Option (JsVal × List Char)) :
    Nat → List Char → Option (List (String × JsVal) × List Char)
  | 0, _ => none
  | fuel + 1, cs =>
    match cs with
    | [] => none
    | c :: cs1 =>
      if c = '"' then
        match parseStrChars cs1 with
        | none => none
        | some (kChars, cs2) =>
          match skipWs cs2 with
          | [] => none
          | d :: cs3 =>
            if d = ':' then
              match pv (skipWs cs3) with
              | none => none
              | some (v, cs4) =>
                match skipWs cs4 with
                | [] => none
                | e :: cs5 =>
                  if e = ',' then
                    match parseFields pv fuel (skipWs cs5) with
                    | none => none
                    | some (fs, rest) => some ((String.mk kChars, v) :: fs, rest)
                  else if e = '\x7d' then some ([(String.mk kChars, v)], cs5)
                  else none
            else none
      else none

/-- Recursive-descent `JSON.parse` (fuel-driven): whitespace between any
two tokens, full number grammar (integer, fraction, exponent), string,
array, object, and the three keyword literals. -/
def parseVal : Nat → List Char → Option (JsVal × List Char)
  | 0, _ => none
  | fuel + 1, input =>
    match input with
    | [] => none
    | c :: cs =>
      if c = 'n' then
        match cs with
        | 'u' :: 'l' :: 'l' :: rest => some (.null, rest)
        | _ => none
      else if c = 't' then
        match cs with
        | 'r' :: 'u' :: 'e' :: rest => some (.bool true, rest)
        | _ => none
      else if c = 'f' then
        match cs with
        | 'a' :: 'l' :: 's' :: 'e' :: rest => some (.bool false, rest)
        | _ => none
      else if c = '"' then
        (parseStrChars cs).map (fun p => (.str (String.mk p.1), p.2))
      else if c = '[' then
        match skipWs cs with
        | [] => none
        | d :: ds =>
          if d = ']' then some (.arr [], ds)
          else (parseElems (parseVal fuel) fuel (d :: ds)).map (fun p => (.arr p.1, p.2))
      else if c = '\x7b' then
        match skipWs cs with
        | [] => none
        | d :: ds =>
          if d = '\x7d' then some (.obj [], ds)
          else
            (parseFields (parseVal fuel) fuel (d :: ds)).map
              (fun p => (.obj (dedupFields p.1), p.2))
      else parseNumberLit (c :: cs)

/-- `JSON.stringify` of a top-level value.  The store only ever applies it
to the object literal copied from its mapping. -/
def JSONstringify (v : JsVal) : String := String.mk (stringifyVal v)

/-- `JSON.parse`: skip leading whitespace, parse one JSON value, and
require only whitespace after it.  The fuel `length + 1` suffices for
every text the printer produces (each nesting level consumes input). -/
def JSONparse (s : String) : Option JsVal :=
  match parseVal (s.data.length + 1) (skipWs s.data) with
  | some (v, rest) =>
    match skipWs rest with
    | [] => some v
    | _ => none
  | none => none

/-- UTF-8 encoding of one scalar value (1-4 bytes). -/
def utf8EncodeChar (c : Char) : List Nat :=
  if c.toNat < 128 then [c.toNat]
  else if c.toNat < 2048 then [192 + c.toNat / 64, 128 + c.toNat % 64]
  else if c.toNat < 65536 then
    [224 + c.toNat / 4096, 128 + c.toNat / 64 % 64, 128 + c.toNat % 64]
  else
    [240 + c.toNat / 262144, 128 + c.toNat / 4096 % 64, 128 + c.toNat / 64 % 64,
      128 + c.toNat % 64]

/-- UTF-8 encoding of a character list. -/
def utf8Encode : List Char → List Nat
  | [] => []
  | c :: cs => utf8EncodeChar c ++ utf8Encode cs

/-- Decode the continuation of a 2-byte UTF-8 sequence with lead byte `b`. -/
def utf8Decode2 (b : Nat) : List Nat → Option (Char × List Nat)
  | b2 :: bs2 =>
    if 128 ≤ b2 ∧ b2 < 192 then some (Char.ofNat ((b - 192) * 64 + (b2 - 128)), bs2)
    else none
  | [] => none

/-- Decode the continuation of a 3-byte UTF-8 sequence with lead byte `b`,
rejecting overlong forms and surrogate code points. -/
def utf8Decode3 (b : Nat) : List Nat → Option (Char × List Nat)
  | b2 :: b3 :: bs3 =>
    if (128 ≤ b2 ∧ b2 < 192) ∧ (128 ≤ b3 ∧ b3 < 192)
        ∧ (b = 224 → 160 ≤ b2) ∧ (b = 237 → b2 < 160) then
      some (Char.ofNat ((b - 224) * 4096 + (b2 - 128) * 64 + (b3 - 128)), bs3)
    else none
  | _ => none

/-- Decode the continuation of a 4-byte UTF-8 sequence with lead byte `b`,
rejecting overlong and out-of-range forms. -/
def utf8Decode4 (b : Nat) : List Nat → Option (Char × List Nat)
  | b2 :: b3 :: b4 :: bs4 =>
    if (128 ≤ b2 ∧ b2 < 192) ∧ (128 ≤ b3 ∧ b3 < 192) ∧ (128 ≤ b4 ∧ b4 < 192)
        ∧ (b = 240 → 144 ≤ b2) ∧ (b = 244 → b2 < 144) then
      some
        (Char.ofNat ((b - 240) * 262144 + (b2 - 128) * 4096 + (b3 - 128) * 64 + (b4 - 128)),
          bs4)
    else none
  | _ => none

/-- One step of strict UTF-8 decoding: decode the first scalar value of the
input (1-4 bytes), rejecting stray continuation bytes, overlong forms,
surrogate code points and out-of-range sequences. -/
def utf8DecodeStep : List Nat → Option (Char × List Nat)
  | [] => none
  | b :: bs =>
    if b < 128 then some (Char.ofNat b, bs)
    else if b < 194 then none
    else if b < 224 then utf8Decode2 b bs
    else if b < 240 then utf8Decode3 b bs
    else if b < 245 then utf8Decode4 b bs
    else none

/-- Fuel-driven loop of strict UTF-8 decoding (each step consumes at least
one byte, so fuel equal to the byte count suffices). -/
def utf8DecodeLoop : Nat → List Nat → Option (List Char)
  | _, [] => some []
  | 0, _ :: _ => none
  | fuel + 1, b :: bs =>
    match utf8DecodeStep (b :: bs) with
    | none => none
    | some (c, rest) => (utf8DecodeLoop fuel rest).map (fun l => c :: l)

/-- Strict UTF-8 decoding of a byte list. -/
def utf8Decode (bs : List Nat) : Option (List Char) := utf8DecodeLoop bs.length bs

/-- The base64 alphabet. -/
def base64Alphabet : List Char :=
  "ABCDEFGHIJKLMNOPQRSTUVWXYZabcdefghijklmnopqrstuvwxyz0123456789+/".data

/-- The base64 character for a sextet `n < 64`. -/
def base64Char (n : Nat) : Char := base64Alphabet.getD n '?'

/-- The sextet value of a base64 character. -/
def base64Index (c : Char) : Option Nat := base64Alphabet.findIdx? (fun a => a = c)

/-- Standard base64 encoding of a byte list, with `=` padding. -/
def base64Encode : List Nat → List Char
  | [] => []
  | [b1] => [base64Char (b1 / 4), base64Char (b1 % 4 * 16), '=', '=']
  | [b1, b2] =>
    [base64Char (b1 / 4), base64Char (b1 % 4 * 16 + b2 / 16), base64Char (b2 % 16 * 4), '=']
  | b1 :: b2 :: b3 :: rest =>
    base64Char (b1 / 4) :: base64Char (b1 % 4 * 16 + b2 / 16) ::
      base64Char (b2 % 16 * 4 + b3 / 64) :: base64Char (b3 % 64) :: base64Encode rest

/-- Strict base64 decoding of a 4-character-aligned input. -/
def base64Decode : List Char → Option (List Nat)
  | [] => some []
  | c1 :: c2 :: c3 :: c4 :: rest =>
    match base64Index c1, base64Index c2 with
    | some s1, some s2 =>
      if c3 = '=' then
        if c4 = '=' ∧ rest = [] ∧ s2 % 16 = 0 then some [s1 * 4 + s2 / 16] else none
      else
        match base64Index c3 with
        | some s3 =>
          if c4 = '=' then
            if rest = [] ∧ s3 % 4 = 0 then some [s1 * 4 + s2 / 16, s2 % 16 * 16 + s3 / 4]
            else none
          else
            match base64Index c4 with
            | some s4 =>
              (base64Decode rest).map
                (fun bs => (s1 * 4 + s2 / 16) :: ((s2 % 16 * 16 + s3 / 4) :: ((s3 % 4 * 64 + s4) :: bs)))
            | none => none
        | none => none
    | _, _ => none
  | _ => none

/-- Modelled from the spec: the storage layer's byte-safe text transport
encoding, "decoded symmetrically on load" - base64 over the UTF-8 bytes of
the text.  (The implementation, `fromBase64ToUtf8` of `fluid-common-utils`,
is not under `src/`.) -/
def toBase64 (s : String) : String := String.mk (base64Encode (utf8Encode s.data))

/-- Modelled from the spec: the symmetric transport decoding used by
`loadCore` (`fromBase64ToUtf8` of `fluid-common-utils`, not under `src/`):
base64 decoding followed by UTF-8 decoding, `none` when either step fails. -/
def fromBase64ToUtf8 (s : String) : Option String :=
  match base64Decode s.data with
  | none => none
  | some bytes => (utf8Decode bytes).map String.mk

/-- `const snapshotFileName = "header"` from the source file. -/
def snapshotFileName : String := "header"

/-- Modelled from the spec: `FileMode` of `fluid-protocol-definitions`
(outside `src/`); only `File` is used by the store. -/
inductive FileMode where
  | File
  | Directory
  | Symlink

/-- Modelled from the spec: a blob value in a snapshot tree entry
(`fluid-protocol-definitions`, outside `src/`) - `contents` text plus an
`encoding` tag. -/
structure ITreeBlob where
  contents : String
  encoding : String

/-- Modelled from the spec: one entry of a snapshot tree
(`fluid-protocol-definitions`, outside `src/`). -/
structure ITreeEntry where
  mode : FileMode
  path : String
  type : String
  value : ITreeBlob

/-- Modelled from the spec: a snapshot tree (`fluid-protocol-definitions`,
outside `src/`) - entries plus an optional id (the store emits
`id: null`). -/
structure ITree where
  entries : List ITreeEntry
  id : Option String

/-- The contents of the first blob entry of a tree (the store's trees have
exactly one entry). -/
def ITree.headerContents (t : ITree) : String :=
  (t.entries.map (fun e => e.value.contents)).headD ""

/-- Errors surfaced by `loadCore`: `corruptSnapshot` abstracts the
`SyntaxError` thrown by `JSON.parse` on unparseable text (the spec's
`CorruptSnapshot`), `typeError` the `TypeError` thrown by
`Object.entries(null)`. -/
inductive LoadError where
  | corruptSnapshot
  | typeError

/-- Modelled from the spec: `ISequencedDocumentMessage` of
`fluid-protocol-definitions` (outside `src/`) - representative fields of a
sequenced change-operation message.  `processCore` never inspects any of
them. -/
structure ISequencedDocumentMessage where
  clientId : Option String
  sequenceNumber : Int
  clientSequenceNumber : Int
  opType : String
  contents : JsVal

/-- The store: `private readonly data = new Map<string, Jsonable>()`
(modelled as an insertion-ordered association list, the iteration order of
a JavaScript `Map`) plus the dirty flag kept by the `SharedObject` base
class (modelled from the spec: a store "is created empty (no entries, not
dirty)"; `this.dirty()` raises the flag). -/
structure SummarizableObject where
  data : List (String × JsVal)
  dirty : Bool

/-- A freshly constructed store: empty mapping, not dirty. -/
def SummarizableObject.create : SummarizableObject :=
  { data := [], dirty := false }

/-- `public get(key: string): Jsonable { return this.data.get(key); }` -
a pure read; `none` models the `undefined` returned for an absent key. -/
def SummarizableObject.get (s : SummarizableObject) (key : String) : Option JsVal :=
  mapGet s.data key

/-- `public set(key, value) { this.data.set(key, value); this.dirty(); }` -
stores the value (no runtime validation of any kind) and raises the dirty
flag. -/
def SummarizableObject.set (s : SummarizableObject) (key : String) (value : JsVal) :
    SummarizableObject :=
  { data := mapSet s.data key value, dirty := true }

/-- The plain-object copy `snapshot` builds: for each mapping entry it does
`contentsBlob[key] = value` on an object literal.  On a plain object the
key `"__proto__"` hits the inherited `Object.prototype.__proto__` setter
instead of creating an own property, so such an entry is silently dropped
from the copy; every other key becomes an own property in iteration
order. -/
def contentsBlobOf (data : List (String × JsVal)) : List (String × JsVal) :=
  data.filter (fun kv => !(kv.1 == "__proto__"))

/-- Does the mapping avoid the one key (`"__proto__"`) that a plain-object
copy cannot hold as an own property? -/
def noProtoKey (data : List (String × JsVal)) : Bool :=
  data.all (fun kv => !(kv.1 == "__proto__"))

/-- `public snapshot(): ITree` - copies the mapping into a plain object
literal (`contentsBlob[key] = value` per entry, so a `"__proto__"` entry
is dropped - see `contentsBlobOf`), `JSON.stringify`s it, and wraps the
text in a one-entry tree: path `snapshotFileName`, `FileMode.File`,
`TreeEntry[TreeEntry.Blob] = "Blob"`, encoding `"utf-8"`, `id: null`. -/
def SummarizableObject.snapshot (s : SummarizableObject) : ITree :=
  { entries := [
      { mode := FileMode.File,
        path := snapshotFileName,
        type := "Blob",
        value := { contents := JSONstringify (JsVal.obj (contentsBlobOf s.data)),
                   encoding := "utf-8" } }],
    id := none }

/-- `Object.entries` of a parsed JSON value, per JavaScript semantics:
fields of an object; index-keyed elements of an array; index-keyed
one-character strings of a string; `[]` for numbers and booleans (their
wrapper objects own no enumerable properties); a `TypeError` for `null`. -/
def objectEntries : JsVal → Except LoadError (List (String × JsVal))
  | .null => .error .typeError
  | .obj fields => .ok fields
  | .arr elements => .ok (enumPairs 0 elements)
  | .str s => .ok (enumChars 0 s.data)
  | _ => .ok []
where
  enumPairs (i : Nat) : List JsVal → List (String × JsVal)
    | [] => []
    | v :: vs => (String.mk (natStr i), v) :: enumPairs (i + 1) vs
  enumChars (i : Nat) : List Char → List (String × JsVal)
    | [] => []
    | c :: cs => (String.mk (natStr i), .str (String.mk [c])) :: enumChars (i + 1) cs

/-- `protected async loadCore(branchId, storage)` - reads the blob named
`snapshotFileName` (here: `rawContent`, the transport-encoded text the
storage reader returns), decodes it, `JSON.parse`s the text, and for each
`Object.entries` pair does `this.data.set(key, value)`.  The dirty flag is
not touched.  `corruptSnapshot` models the exception escaping when the
decoded text cannot be parsed. -/
def SummarizableObject.loadCore (s : SummarizableObject) (rawContent : String) :
    Except LoadError SummarizableObject :=
  match fromBase64ToUtf8 rawContent with
  | none => .error .corruptSnapshot
  | some text =>
    match JSONparse text with
    | none => .error .corruptSnapshot
    | some v =>
      match objectEntries v with
      | .error e => .error e
      | .ok entries =>
        .ok { s with data := entries.foldl (fun d kv => mapSet d kv.1 kv.2) s.data }

/-- `protected processCore(message, local) { throw new Error(...); }` -
unconditionally throws; the `Except.error` result models the exception and
carries the exact source message.  No state is produced. -/
def SummarizableObject.processCore (s : SummarizableObject)
    (message : ISequencedDocumentMessage) (isLocal : Bool) :
    Except String SummarizableObject :=
  .error "Summarizable object should not generate any ops."

/-- The transport-encoded blob the storage layer persists for a store's
snapshot: base64 of the UTF-8 bytes of the single entry's contents. -/
def storedSnapshotBlob (s : SummarizableObject) : String :=
  toBase64 (ITree.headerContents (SummarizableObject.snapshot s))

/-- The store's observable operations, for stating state-evolution
invariants (dirty monotonicity, snapshot idempotence). -/
inductive StoreOp where
  | get (key : String)
  | set (key : String) (value : JsVal)
  | snapshot

/-- Is this operation a `set`? -/
def StoreOp.isSet : StoreOp → Bool
  | .set _ _ => true
  | _ => false

/-- The state reached after one operation: `get` and `snapshot` only read
(their bodies contain no mutation), `set` updates the mapping and raises
the dirty flag. -/
def applyOp (s : SummarizableObject) : StoreOp → SummarizableObject
  | .get _ => s
  | .set k v => s.set k v
  | .snapshot => s

/-- The state reached after a sequence of operations. -/
def applyOps (s : SummarizableObject) (ops : List StoreOp) : SummarizableObject :=
  ops.foldl applyOp s

/-! ### Number printing and parsing -/

theorem char_valid_nat (c : Char) :
    c.toNat < 55296 ∨ (57343 < c.toNat ∧ c.toNat < 1114112) := by
  have h := c.valid
  unfold UInt32.isValidChar Nat.isValidChar at h
  exact h

theorem digitChar_isDigit : ∀ d, d < 10 → (digitChar d).isDigit = true := by decide

theorem digitChar_toNat : ∀ d, d < 10 → (digitChar d).toNat = 48 + d := by decide

theorem digitChar_ne_zero : ∀ d, d < 10 → d ≠ 0 → digitChar d ≠ '0' := by decide

theorem digit_ne (c : Char) (h : c.isDigit = true) :
    c ≠ '-' ∧ c ≠ 'n' ∧ c ≠ 't' ∧ c ≠ 'f' ∧ c ≠ '"' ∧ c ≠ '[' ∧ c ≠ '\x7b' ∧
      c ≠ ']' ∧ c ≠ '\x7d' ∧ c ≠ ',' := by
  refine ⟨?_, ?_, ?_, ?_, ?_, ?_, ?_, ?_, ?_, ?_⟩ <;>
    exact fun hc => absurd (hc ▸ h) (by decide)

theorem natStrAux_irrel : ∀ f1 f2 n : Nat, n < f1 → n < f2 → natStrAux f1 n = natStrAux f2 n := by
  intro f1
  induction f1 with
  | zero => intro f2 n h1 h2; omega
  | succ f1 ih =>
    intro f2 n h1 h2
    cases f2 with
    | zero => omega
    | succ f2 =>
      by_cases h : n < 10
      · simp [natStrAux, h]
      · simp only [natStrAux, if_neg h]
        rw [ih f2 (n / 10) (by omega) (by omega)]

theorem natStr_lt10 (n : Nat) (h : n < 10) : natStr n = [digitChar n] := by
  simp [natStr, natStrAux, h]

theorem natStr_ge10 (n : Nat) (h : 10 ≤ n) :
    natStr n = natStr (n / 10) ++ [digitChar (n % 10)] := by
  have h1 : ¬ n < 10 := by omega
  have e1 : natStr n = natStrAux n (n / 10) ++ [digitChar (n % 10)] := by
    simp only [natStr, natStrAux, if_neg h1]
  rw [e1, natStrAux_irrel n (n / 10 + 1) (n / 10) (by omega) (by omega)]
  rfl

theorem parseDigits_stop (rest : List Char) (acc : Nat) (h : digitStart rest = false) :
    parseDigits rest acc = (acc, rest) := by
  cases rest with
  | nil => rfl
  | cons c cs =>
    simp only [digitStart] at h
    simp [parseDigits, h]

theorem parseDigits_natStr (n : Nat) :
    ∀ (acc : Nat) (rest : List Char),
      parseDigits (natStr n ++ rest) acc = parseDigits rest (acc * 10 ^ (natStr n).length + n) := by
  induction n using Nat.strong_induction_on with
  | _ n ih =>
    intro acc rest
    by_cases h : n < 10
    · rw [natStr_lt10 n h]
      simp only [List.cons_append, List.nil_append, parseDigits,
        digitChar_isDigit n h, if_pos, digitChar_toNat n h, List.length_singleton, pow_one]
      have he : acc * 10 + (48 + n - 48) = acc * 10 + n := by omega
      rw [he]
      rfl
    · have h10 : 10 ≤ n := by omega
      have hdiv : n / 10 < n := by omega
      have hd9 : n % 10 < 10 := by omega
      rw [natStr_ge10 n h10, List.append_assoc,
        ih (n / 10) hdiv acc ([digitChar (n % 10)] ++ rest)]
      simp only [List.cons_append, List.nil_append, parseDigits,
        digitChar_isDigit _ hd9, if_pos, digitChar_toNat _ hd9, List.length_append,
        List.length_singleton]
      have key : ∀ y : Nat,
          (y + n / 10) * 10 + (48 + n % 10 - 48) = y * 10 + n := by
        intro y; omega
      rw [key (acc * 10 ^ (natStr (n / 10)).length), pow_succ, ← mul_assoc]
      rfl

theorem natStr_head (n : Nat) :
    ∃ c t, natStr n = c :: t ∧ c.isDigit = true ∧ (0 < n → c ≠ '0') := by
  induction n using Nat.strong_induction_on with
  | _ n ih =>
    by_cases h : n < 10
    · exact ⟨digitChar n, [], natStr_lt10 n h, digitChar_isDigit n h,
        fun hn => digitChar_ne_zero n h (by omega)⟩
    · obtain ⟨c, t, he, hd, hz⟩ := ih (n / 10) (by omega)
      refine ⟨c, t ++ [digitChar (n % 10)], ?_, hd, fun _ => hz (by omega)⟩
      rw [natStr_ge10 n (by omega), he, List.cons_append]

theorem parseNatLit_natStr (n : Nat) (rest : List Char) (h : digitStart rest = false) :
    parseNatLit (natStr n ++ rest) = some (n, rest) := by
  rcases Nat.eq_zero_or_pos n with rfl | hn
  · have h0 : natStr 0 = ['0'] := rfl
    rw [h0]
    simp [parseNatLit, h]
  · obtain ⟨c, t, he, hd, hz⟩ := natStr_head n
    have hc0 : ¬ c = '0' := hz hn
    rw [he, List.cons_append]
    simp only [parseNatLit, if_neg hc0, hd, if_pos]
    rw [← List.cons_append, ← he, parseDigits_natStr n 0 rest]
    simp only [zero_mul, zero_add]
    rw [parseDigits_stop rest n h]

theorem parseIntLit_intStr (n : Int) (rest : List Char) (h : digitStart rest = false) :
    parseIntLit (intStr n ++ rest) = some (n, rest) := by
  cases n with
  | ofNat m =>
    show parseIntLit (natStr m ++ rest) = _
    obtain ⟨c, t, he, hd, -⟩ := natStr_head m
    have hneg : ¬ c = '-' := (digit_ne c hd).1
    rw [he, List.cons_append]
    simp only [parseIntLit, if_neg hneg]
    rw [← List.cons_append, ← he, parseNatLit_natStr m rest h]
    rfl
  | negSucc m =>
    show parseIntLit (('-' :: natStr (m + 1)) ++ rest) = _
    rw [List.cons_append]
    simp only [parseIntLit, if_pos]
    rw [parseNatLit_natStr (m + 1) rest h]
    simp [Int.negSucc_eq]

theorem digit_not_ws (c : Char) (h : c.isDigit = true) : isWs c = false := by
  simp only [isWs, Bool.or_eq_false_iff, decide_eq_false_iff_not]
  refine ⟨⟨⟨?_, ?_⟩, ?_⟩, ?_⟩ <;> rintro rfl <;> exact absurd h (by decide)

theorem skipWs_not_ws (c : Char) (cs : List Char) (h : isWs c = false) :
    skipWs (c :: cs) = c :: cs := by
  simp [skipWs, h]

theorem numStop_digitStart (rest : List Char) (h : numStop rest = true) :
    digitStart rest = false := by
  cases rest with
  | nil => rfl
  | cons c cs =>
    simp only [numStop, Bool.not_eq_true', Bool.or_eq_false_iff] at h
    simp only [digitStart]
    exact h.1.1.1

theorem parseFrac_stop (rest : List Char) (h : numStop rest = true) :
    parseFrac rest = some ([], rest) := by
  cases rest with
  | nil => rfl
  | cons c cs =>
    simp only [numStop, Bool.not_eq_true', Bool.or_eq_false_iff,
      decide_eq_false_iff_not] at h
    simp only [parseFrac]
    rw [if_neg h.1.1.2]

theorem parseExp_stop (rest : List Char) (h : numStop rest = true) :
    parseExp rest = some ([], rest) := by
  cases rest with
  | nil => rfl
  | cons c cs =>
    simp only [numStop, Bool.not_eq_true', Bool.or_eq_false_iff,
      decide_eq_false_iff_not] at h
    simp only [parseExp]
    rw [if_neg (by rintro (rfl | rfl); exacts [h.1.2 rfl, h.2 rfl])]

theorem parseNumberLit_intStr (n : Int) (rest : List Char) (h : numStop rest = true) :
    parseNumberLit (intStr n ++ rest) = some (.num n, rest) := by
  unfold parseNumberLit
  simp +decide only [parseIntLit_intStr n rest (numStop_digitStart rest h),
    parseFrac_stop rest h, parseExp_stop rest h, reduceIte]

/-! ### String literal printing and parsing -/

theorem hexVal_hexDigit : ∀ d, d < 16 → hexVal (hexDigit d) = some d := by decide

set_option maxHeartbeats 1600000 in
theorem parseStrChars_escape :
    ∀ l rest, parseStrChars (escapeList l ++ ('"' :: rest)) = some (l, rest) := by
  intro l
  induction l with
  | nil =>
    intro rest
    rw [show escapeList [] = [] from rfl, List.nil_append, parseStrChars.eq_def]
    simp +decide only [reduceIte]
  | cons c cs ih =>
    intro rest
    rw [show escapeList (c :: cs) = escapeChar c ++ escapeList cs from rfl, List.append_assoc]
    by_cases h1 : c = '"'
    · subst h1
      rw [show escapeChar '"' = ['\\', '"'] from rfl, List.cons_append, List.cons_append,
        List.nil_append, parseStrChars.eq_def]
      simp +decide only [unescapeChar, reduceIte]
      rw [ih rest]
      rfl
    · by_cases h2 : c = '\\'
      · subst h2
        rw [show escapeChar '\\' = ['\\', '\\'] from rfl, List.cons_append, List.cons_append,
          List.nil_append, parseStrChars.eq_def]
        simp +decide only [unescapeChar, reduceIte]
        rw [ih rest]
        rfl
      · by_cases h3 : c = '\x08'
        · subst h3
          rw [show escapeChar '\x08' = ['\\', 'b'] from rfl, List.cons_append, List.cons_append,
            List.nil_append, parseStrChars.eq_def]
          simp +decide only [unescapeChar, reduceIte]
          rw [ih rest]
          rfl
        · by_cases h4 : c = '\x09'
          · subst h4
            rw [show escapeChar '\x09' = ['\\', 't'] from rfl, List.cons_append, List.cons_append,
              List.nil_append, parseStrChars.eq_def]
            simp +decide only [unescapeChar, reduceIte]
            rw [ih rest]
            rfl
          · by_cases h5 : c = '\x0a'
            · subst h5
              rw [show escapeChar '\x0a' = ['\\', 'n'] from rfl, List.cons_append,
                List.cons_append, List.nil_append, parseStrChars.eq_def]
              simp +decide only [unescapeChar, reduceIte]
              rw [ih rest]
              rfl
            · by_cases h6 : c = '\x0c'
              · subst h6
                rw [show escapeChar '\x0c' = ['\\', 'f'] from rfl, List.cons_append,
                  List.cons_append, List.nil_append, parseStrChars.eq_def]
                simp +decide only [unescapeChar, reduceIte]
                rw [ih rest]
                rfl
              · by_cases h7 : c = '\x0d'
                · subst h7
                  rw [show escapeChar '\x0d' = ['\\', 'r'] from rfl, List.cons_append,
                    List.cons_append, List.nil_append, parseStrChars.eq_def]
                  simp +decide only [unescapeChar, reduceIte]
                  rw [ih rest]
                  rfl
                · by_cases h8 : c.toNat < 32
                  · rw [show escapeChar c =
                        ['\\', 'u', '0', '0', hexDigit (c.toNat / 16), hexDigit (c.toNat % 16)] by
                      simp only [escapeChar, if_neg h1, if_neg h2, if_neg h3, if_neg h4,
                        if_neg h5, if_neg h6, if_neg h7, if_pos h8]]
                    have hd1 : hexVal (hexDigit (c.toNat / 16)) = some (c.toNat / 16) :=
                      hexVal_hexDigit _ (by omega)
                    have hd2 : hexVal (hexDigit (c.toNat % 16)) = some (c.toNat % 16) :=
                      hexVal_hexDigit _ (by omega)
                    have hq : hexQuad '0' '0' (hexDigit (c.toNat / 16))
                          (hexDigit (c.toNat % 16)) =
                        some (((0 * 16 + 0) * 16 + c.toNat / 16) * 16 + c.toNat % 16) := by
                      unfold hexQuad
                      simp only [show hexVal '0' = some 0 from rfl, hd1, hd2]
                    simp only [List.cons_append, List.nil_append]
                    rw [parseStrChars.eq_def]
                    simp +decide only [reduceIte]
                    simp only [parseUEscape, hq]
                    rw [if_pos (show ((0 * 16 + 0) * 16 + c.toNat / 16) * 16 + c.toNat % 16
                        < 55296 ∨
                        57343 < ((0 * 16 + 0) * 16 + c.toNat / 16) * 16 + c.toNat % 16
                      from Or.inl (by omega))]
                    rw [ih rest]
                    have hv : ((0 * 16 + 0) * 16 + c.toNat / 16) * 16 + c.toNat % 16 = c.toNat := by
                      omega
                    rw [hv, Char.ofNat_toNat]
                    rfl
                  · rw [show escapeChar c = [c] by
                      simp only [escapeChar, if_neg h1, if_neg h2, if_neg h3, if_neg h4,
                        if_neg h5, if_neg h6, if_neg h7, if_neg h8]]
                    rw [List.cons_append, List.nil_append, parseStrChars.eq_def]
                    simp only [if_neg h1, if_neg h2, if_neg h8]
                    rw [ih rest]
                    rfl

/-! ### Shapes of serialized output -/

theorem jsonable_not_func (v : JsVal) (h : v.jsonable = true) : v.isFunc = false := by
  cases v with
  | func => exact absurd h (by decide)
  | null => rfl
  | bool b => rfl
  | num n => rfl
  | numFrac l => rfl
  | str s => rfl
  | arr es => rfl
  | obj fs => rfl

theorem stringifyFields_cons (k : String) (v : JsVal) (fs : List (String × JsVal))
    (h : v.isFunc = false) :
    stringifyFields ((k, v) :: fs) =
      ',' :: (strLitChars k.data ++ (':' :: (stringifyVal v ++ stringifyFields fs))) := by
  simp only [stringifyFields, h]
  rfl

theorem stringify_head (v : JsVal) (hj : v.jsonable = true) :
    ∃ c t, stringifyVal v = c :: t ∧ c ≠ ']' ∧ c ≠ '\x7d' ∧ isWs c = false := by
  cases v with
  | null => exact ⟨'n', _, rfl, by decide⟩
  | bool b => cases b with
    | true => exact ⟨'t', _, rfl, by decide⟩
    | false => exact ⟨'f', _, rfl, by decide⟩
  | num n =>
    cases n with
    | ofNat m =>
      obtain ⟨c, t, he, hd, -⟩ := natStr_head m
      exact ⟨c, t, he, (digit_ne c hd).2.2.2.2.2.2.2.1, (digit_ne c hd).2.2.2.2.2.2.2.2.1,
        digit_not_ws c hd⟩
    | negSucc m => exact ⟨'-', _, rfl, by decide⟩
  | numFrac l => exact absurd hj (by simp [JsVal.jsonable])
  | str s => exact ⟨'"', _, rfl, by decide⟩
  | arr es => cases es with
    | nil => exact ⟨'[', _, rfl, by decide⟩
    | cons v vs => exact ⟨'[', _, rfl, by decide⟩
  | obj fs => exact ⟨'\x7b', _, rfl, by decide⟩
  | func => exact ⟨'n', _, rfl, by decide⟩

theorem stringifyFields_shape (fs : List (String × JsVal)) (h : jsonableFields fs = true) :
    stringifyFields fs = [] ∨ ∃ t, stringifyFields fs = ',' :: t := by
  cases fs with
  | nil => exact Or.inl rfl
  | cons kv fs =>
    obtain ⟨k, v⟩ := kv
    have hv : v.isFunc = false := by
      have : v.jsonable = true := by
        have := h
        simp only [jsonableFields, Bool.and_eq_true] at this
        exact this.1
      exact jsonable_not_func v this
    exact Or.inr ⟨_, stringifyFields_cons k v fs hv⟩

/-! ### Parser dispatch lemmas -/

theorem parseVal_null (fuel : Nat) (cs : List Char) :
    parseVal (fuel + 1) ('n' :: 'u' :: 'l' :: 'l' :: cs) = some (.null, cs) := by
  simp only [parseVal]
  simp +decide only [reduceIte]

theorem parseVal_true (fuel : Nat) (cs : List Char) :
    parseVal (fuel + 1) ('t' :: 'r' :: 'u' :: 'e' :: cs) = some (.bool true, cs) := by
  simp only [parseVal]
  simp +decide only [reduceIte]

theorem parseVal_false (fuel : Nat) (cs : List Char) :
    parseVal (fuel + 1) ('f' :: 'a' :: 'l' :: 's' :: 'e' :: cs) = some (.bool false, cs) := by
  simp only [parseVal]
  simp +decide only [reduceIte]

theorem parseVal_str (fuel : Nat) (cs : List Char) :
    parseVal (fuel + 1) ('"' :: cs) =
      (parseStrChars cs).map (fun p => (.str (String.mk p.1), p.2)) := by
  simp only [parseVal]
  simp +decide only [reduceIte]

theorem parseVal_arr_nil (fuel : Nat) (ds : List Char) :
    parseVal (fuel + 1) ('[' :: ']' :: ds) = some (.arr [], ds) := by
  simp only [parseVal]
  simp +decide only [skipWs, reduceIte]

theorem parseVal_arr (fuel : Nat) (d : Char) (ds : List Char) (h : ¬ d = ']')
    (hw : isWs d = false) :
    parseVal (fuel + 1) ('[' :: d :: ds) =
      (parseElems (parseVal fuel) fuel (d :: ds)).map (fun p => (.arr p.1, p.2)) := by
  simp only [parseVal]
  rw [skipWs_not_ws d ds hw]
  simp +decide only [reduceIte]
  rw [if_neg h]

theorem parseVal_obj_nil (fuel : Nat) (ds : List Char) :
    parseVal (fuel + 1) ('\x7b' :: '\x7d' :: ds) = some (.obj [], ds) := by
  simp only [parseVal]
  simp +decide only [skipWs, reduceIte]

theorem parseVal_obj (fuel : Nat) (d : Char) (ds : List Char) (h : ¬ d = '\x7d')
    (hw : isWs d = false) :
    parseVal (fuel + 1) ('\x7b' :: d :: ds) =
      (parseFields (parseVal fuel) fuel (d :: ds)).map
        (fun p => (.obj (dedupFields p.1), p.2)) := by
  simp only [parseVal]
  rw [skipWs_not_ws d ds hw]
  simp +decide only [reduceIte]
  rw [if_neg h]

theorem parseVal_digit (fuel : Nat) (c : Char) (cs : List Char) (h : c.isDigit = true) :
    parseVal (fuel + 1) (c :: cs) = parseNumberLit (c :: cs) := by
  obtain ⟨-, hn, ht, hf, hq, hb, hcb, -, -, -⟩ := digit_ne c h
  simp only [parseVal]
  simp only [if_neg hn, if_neg ht, if_neg hf, if_neg hq, if_neg hb, if_neg hcb]

theorem parseVal_minus (fuel : Nat) (cs : List Char) :
    parseVal (fuel + 1) ('-' :: cs) = parseNumberLit ('-' :: cs) := by
  simp only [parseVal]
  simp +decide only [reduceIte]

/-! ### Size and membership lemmas -/

theorem fsize_pos (v : JsVal) : 1 ≤ fsize v := by
  cases v <;> simp only [fsize] <;> omega

theorem length_le_fsizeElems : ∀ vs : List JsVal, vs.length ≤ fsizeElems vs := by
  intro vs
  induction vs with
  | nil => simp [fsizeElems]
  | cons v vs ih =>
    simp only [List.length_cons, fsizeElems]
    omega

theorem elem_fsize_le : ∀ (vs : List JsVal) (w : JsVal), w ∈ vs → fsize w ≤ fsizeElems vs := by
  intro vs
  induction vs with
  | nil => intro w hw; cases hw
  | cons v vs ih =>
    intro w hw
    rcases List.mem_cons.mp hw with rfl | hw
    · simp only [fsizeElems]; omega
    · have := ih w hw
      simp only [fsizeElems]
      have := fsize_pos v
      omega

theorem jsonableList_mem : ∀ (vs : List JsVal) (w : JsVal),
    jsonableList vs = true → w ∈ vs → w.jsonable = true := by
  intro vs
  induction vs with
  | nil => intro w _ hw; cases hw
  | cons v vs ih =>
    intro w h hw
    simp only [jsonableList, Bool.and_eq_true] at h
    rcases List.mem_cons.mp hw with rfl | hw
    · exact h.1
    · exact ih w h.2 hw

theorem length_le_fsizeFields : ∀ fs : List (String × JsVal), fs.length ≤ fsizeFields fs := by
  intro fs
  induction fs with
  | nil => simp [fsizeFields]
  | cons kv fs ih =>
    simp only [List.length_cons, fsizeFields]
    have := fsize_pos kv.2
    omega

theorem field_fsize_le : ∀ (fs : List (String × JsVal)) (p : String × JsVal),
    p ∈ fs → fsize p.2 ≤ fsizeFields fs := by
  intro fs
  induction fs with
  | nil => intro p hp; cases hp
  | cons kv fs ih =>
    intro p hp
    rcases List.mem_cons.mp hp with rfl | hp
    · simp only [fsizeFields]; omega
    · have := ih p hp
      simp only [fsizeFields]
      have := fsize_pos kv.2
      omega

theorem jsonableFields_mem : ∀ (fs : List (String × JsVal)) (p : String × JsVal),
    jsonableFields fs = true → p ∈ fs → p.2.jsonable = true := by
  intro fs
  induction fs with
  | nil => intro p _ hp; cases hp
  | cons kv fs ih =>
    intro p h hp
    simp only [jsonableFields, Bool.and_eq_true] at h
    rcases List.mem_cons.mp hp with rfl | hp
    · exact h.1
    · exact ih p h.2 hp

/-! ### Association list lemmas -/

theorem mapGet_mapSet_same : ∀ (l : List (String × JsVal)) (key : String) (v : JsVal),
    mapGet (mapSet l key v) key = some v := by
  intro l
  induction l with
  | nil => intro key v; simp [mapSet, mapGet]
  | cons kv rest ih =>
    intro key v
    obtain ⟨k, w⟩ := kv
    by_cases h : k = key
    · simp [mapSet, mapGet, h]
    · simp only [mapSet, if_neg h, mapGet]
      exact ih key v

theorem mapGet_mapSet_other : ∀ (l : List (String × JsVal)) (key : String) (v : JsVal)
    (other : String), ¬ other = key → mapGet (mapSet l key v) other = mapGet l other := by
  intro l
  induction l with
  | nil =>
    intro key v other h
    simp only [mapSet, mapGet]
    rw [if_neg (fun hk => h hk.symm)]
  | cons kv rest ih =>
    intro key v other h
    obtain ⟨k, w⟩ := kv
    by_cases hk : k = key
    · subst hk
      simp only [mapSet, if_pos rfl, mapGet]
      rw [if_neg (fun hk2 => h hk2.symm), if_neg (fun hk2 => h hk2.symm)]
    · simp only [mapSet, if_neg hk, mapGet]
      by_cases ho : k = other
      · rw [if_pos ho, if_pos ho]
      · rw [if_neg ho, if_neg ho]
        exact ih key v other h

theorem mapSet_append_of_none : ∀ (l : List (String × JsVal)) (key : String) (v : JsVal),
    mapGet l key = none → mapSet l key v = l ++ [(key, v)] := by
  intro l
  induction l with
  | nil => intro key v _; rfl
  | cons kv rest ih =>
    intro key v h
    obtain ⟨k, w⟩ := kv
    simp only [mapGet] at h
    by_cases hk : k = key
    · rw [if_pos hk] at h; cases h
    · rw [if_neg hk] at h
      simp only [mapSet, if_neg hk, List.cons_append]
      rw [ih key v h]

theorem mapGet_append_of_none : ∀ (l l2 : List (String × JsVal)) (key : String),
    mapGet l key = none → mapGet (l ++ l2) key = mapGet l2 key := by
  intro l
  induction l with
  | nil => intro l2 key _; rfl
  | cons kv rest ih =>
    intro l2 key h
    obtain ⟨k, w⟩ := kv
    simp only [mapGet] at h
    by_cases hk : k = key
    · rw [if_pos hk] at h; cases h
    · rw [if_neg hk] at h
      simp only [List.cons_append, mapGet, if_neg hk]
      exact ih l2 key h

theorem foldl_mapSet_append :
    ∀ (fs acc : List (String × JsVal)),
      keysNodup (fs.map Prod.fst) = true →
      (∀ p ∈ fs, mapGet acc p.1 = none) →
      fs.foldl (fun d kv => mapSet d kv.1 kv.2) acc = acc ++ fs := by
  intro fs
  induction fs with
  | nil => intro acc _ _; simp
  | cons kv fs ih =>
    intro acc hnd hnone
    obtain ⟨k, v⟩ := kv
    simp only [List.map_cons, keysNodup, Bool.and_eq_true, Bool.not_eq_true'] at hnd
    have hknotin : k ∉ fs.map Prod.fst := by simpa using hnd.1
    have hset : mapSet acc k v = acc ++ [(k, v)] :=
      mapSet_append_of_none acc k v (hnone (k, v) (List.mem_cons_self _ _))
    simp only [List.foldl_cons]
    rw [hset, ih (acc ++ [(k, v)]) hnd.2 ?_]
    · simp
    · intro p hp
      rw [mapGet_append_of_none acc [(k, v)] p.1 (hnone p (List.mem_cons_of_mem _ hp))]
      simp only [mapGet]
      rw [if_neg ?_]
      intro hk
      exact hknotin (hk ▸ List.mem_map_of_mem Prod.fst hp)

theorem dedupFields_self (fs : List (String × JsVal))
    (h : keysNodup (fs.map Prod.fst) = true) : dedupFields fs = fs := by
  unfold dedupFields
  rw [foldl_mapSet_append fs [] h (fun p _ => rfl)]
  rfl

/-! ### Round trip for arrays and objects -/

theorem string_mk_data (s : String) : String.mk s.data = s := rfl

theorem numStop_elems (vs : List JsVal) (rest : List Char) :
    numStop (stringifyElems vs ++ (']' :: rest)) = true := by
  cases vs with
  | nil => rfl
  | cons v vs =>
    rw [show stringifyElems (v :: vs) = ',' :: (stringifyVal v ++ stringifyElems vs) from rfl,
      List.cons_append]
    rfl

theorem numStop_fields (fs : List (String × JsVal)) (rest : List Char)
    (h : jsonableFields fs = true) :
    numStop (stringifyFields fs ++ ('\x7d' :: rest)) = true := by
  rcases stringifyFields_shape fs h with he | ⟨t, he⟩
  · rw [he, List.nil_append]; rfl
  · rw [he, List.cons_append]; rfl

theorem parseElems_stringify :
    ∀ (fuel : Nat) (pv : List Char → Option (JsVal × List Char)) (v : JsVal)
      (vs : List JsVal) (rest : List Char),
      (∀ w ∈ v :: vs, ∀ rest2, numStop rest2 = true →
        pv (stringifyVal w ++ rest2) = some (w, rest2)) →
      jsonableList (v :: vs) = true →
      vs.length < fuel →
      parseElems pv fuel (stringifyVal v ++ (stringifyElems vs ++ (']' :: rest))) =
        some (v :: vs, rest) := by
  intro fuel
  induction fuel with
  | zero => intro pv v vs rest _ _ h; omega
  | succ fuel ih =>
    intro pv v vs rest hpv hjl hlen
    cases vs with
    | nil =>
      show parseElems pv (fuel + 1) (stringifyVal v ++ (']' :: rest)) = some ([v], rest)
      have h1 : pv (stringifyVal v ++ (']' :: rest)) = some (v, ']' :: rest) :=
        hpv v (List.mem_cons_self _ _) (']' :: rest) rfl
      simp only [parseElems]
      rw [h1]
      simp +decide only [skipWs, reduceIte]
    | cons v2 vs2 =>
      have hjp : v.jsonable = true ∧ v2.jsonable = true ∧ jsonableList vs2 = true := by
        simpa only [jsonableList, Bool.and_eq_true] using hjl
      obtain ⟨c2, t2, he2, -, -, hw2⟩ := stringify_head v2 hjp.2.1
      have hin : stringifyVal v ++ (stringifyElems (v2 :: vs2) ++ (']' :: rest)) =
          stringifyVal v ++
            (',' :: (stringifyVal v2 ++ (stringifyElems vs2 ++ (']' :: rest)))) := by
        rw [show stringifyElems (v2 :: vs2) =
          ',' :: (stringifyVal v2 ++ stringifyElems vs2) from rfl]
        simp only [List.cons_append, List.append_assoc]
      rw [hin]
      have h1 : pv (stringifyVal v ++
            (',' :: (stringifyVal v2 ++ (stringifyElems vs2 ++ (']' :: rest))))) =
          some (v, ',' :: (stringifyVal v2 ++ (stringifyElems vs2 ++ (']' :: rest)))) :=
        hpv v (List.mem_cons_self _ _) _ rfl
      simp only [parseElems]
      rw [h1]
      simp +decide only [skipWs, reduceIte]
      rw [he2, List.cons_append, skipWs_not_ws c2 _ hw2, ← List.cons_append, ← he2]
      rw [ih pv v2 vs2 rest
        (fun w hw rest2 hr2 => hpv w (List.mem_cons_of_mem _ hw) rest2 hr2)
        (by simp only [jsonableList, Bool.and_eq_true]; exact ⟨hjp.2.1, hjp.2.2⟩)
        (by simp only [List.length_cons] at hlen; omega)]

theorem parseFields_stringify :
    ∀ (fuel : Nat) (pv : List Char → Option (JsVal × List Char)) (k : String) (v : JsVal)
      (fs : List (String × JsVal)) (rest : List Char),
      (∀ p ∈ ((k, v) :: fs), ∀ rest2, numStop rest2 = true →
        pv (stringifyVal p.2 ++ rest2) = some (p.2, rest2)) →
      jsonableFields ((k, v) :: fs) = true →
      fs.length < fuel →
      parseFields pv fuel
        (strLitChars k.data ++
          (':' :: (stringifyVal v ++ (stringifyFields fs ++ ('\x7d' :: rest))))) =
        some ((k, v) :: fs, rest) := by
  intro fuel
  induction fuel with
  | zero => intro pv k v fs rest _ _ h; omega
  | succ fuel ih =>
    intro pv k v fs rest hpv hj hlen
    have hjs : v.jsonable = true ∧ jsonableFields fs = true := by
      simpa only [jsonableFields, Bool.and_eq_true] using hj
    obtain ⟨cv, tv, hev, -, -, hwv⟩ := stringify_head v hjs.1
    have hin : strLitChars k.data ++
          (':' :: (stringifyVal v ++ (stringifyFields fs ++ ('\x7d' :: rest)))) =
        '"' :: (escapeList k.data ++
          ('"' :: (':' :: (stringifyVal v ++ (stringifyFields fs ++ ('\x7d' :: rest)))))) := by
      simp only [strLitChars, List.cons_append, List.append_assoc, List.nil_append]
    rw [hin]
    simp only [parseFields]
    simp +decide only [reduceIte]
    rw [parseStrChars_escape k.data
      (':' :: (stringifyVal v ++ (stringifyFields fs ++ ('\x7d' :: rest))))]
    simp +decide only [skipWs, reduceIte]
    rw [hev, List.cons_append, skipWs_not_ws cv _ hwv, ← List.cons_append, ← hev]
    have h1 : pv (stringifyVal v ++ (stringifyFields fs ++ ('\x7d' :: rest))) =
        some (v, stringifyFields fs ++ ('\x7d' :: rest)) :=
      hpv (k, v) (List.mem_cons_self _ _) _ (numStop_fields fs rest hjs.2)
    rw [h1]
    cases fs with
    | nil =>
      rw [show stringifyFields [] = [] from rfl, List.nil_append]
      simp +decide only [skipWs, reduceIte]
    | cons kv2 fs2 =>
      obtain ⟨k2, v2⟩ := kv2
      have hv2j : v2.jsonable = true ∧ jsonableFields fs2 = true := by
        simpa only [jsonableFields, Bool.and_eq_true] using hjs.2
      have hv2 : v2.isFunc = false := jsonable_not_func v2 hv2j.1
      rw [stringifyFields_cons k2 v2 fs2 hv2, List.cons_append]
      simp +decide only [skipWs, reduceIte]
      have hin2 : strLitChars k2.data ++
            (':' :: (stringifyVal v2 ++ (stringifyFields fs2 ++ ('\x7d' :: rest)))) =
          '"' :: (escapeList k2.data ++
            ('"' :: (':' :: (stringifyVal v2 ++ (stringifyFields fs2 ++ ('\x7d' :: rest)))))) := by
        simp only [strLitChars, List.cons_append, List.append_assoc, List.nil_append]
      simp only [List.append_eq, List.append_assoc, List.cons_append, List.nil_append]
      rw [← hin2]
      rw [ih pv k2 v2 fs2 rest
        (fun p hp rest2 hr2 => hpv p (List.mem_cons_of_mem _ hp) rest2 hr2)
        hjs.2
        (by simp only [List.length_cons] at hlen; omega)]

theorem parseVal_stringify :
    ∀ (fuel : Nat) (v : JsVal) (rest : List Char),
      v.jsonable = true → fsize v < fuel → numStop rest = true →
      parseVal fuel (stringifyVal v ++ rest) = some (v, rest) := by
  intro fuel
  induction fuel with
  | zero =>
    intro v rest _ hf _
    have := fsize_pos v
    omega
  | succ fuel ih =>
    intro v rest hj hf hd
    cases v with
    | null => exact parseVal_null fuel rest
    | bool b =>
      cases b with
      | true => exact parseVal_true fuel rest
      | false => exact parseVal_false fuel rest
    | num n =>
      cases n with
      | ofNat m =>
        obtain ⟨c, t, he, hdg, -⟩ := natStr_head m
        rw [show stringifyVal (.num (Int.ofNat m)) = natStr m from rfl, he, List.cons_append,
          parseVal_digit fuel c (t ++ rest) hdg, ← List.cons_append, ← he,
          show (natStr m : List Char) = intStr (Int.ofNat m) from rfl,
          parseNumberLit_intStr (Int.ofNat m) rest hd]
      | negSucc m =>
        rw [show stringifyVal (.num (Int.negSucc m)) = '-' :: natStr (m + 1) from rfl,
          List.cons_append, parseVal_minus fuel (natStr (m + 1) ++ rest),
          show ('-' :: (natStr (m + 1) ++ rest)) = intStr (Int.negSucc m) ++ rest from rfl,
          parseNumberLit_intStr (Int.negSucc m) rest hd]
    | numFrac l => exact absurd hj (by simp [JsVal.jsonable])
    | str s =>
      rw [show stringifyVal (.str s) = '"' :: (escapeList s.data ++ ['"']) from rfl,
        List.cons_append, parseVal_str fuel _, List.append_assoc,
        show (['"'] ++ rest : List Char) = '"' :: rest from rfl,
        parseStrChars_escape s.data rest]
      rfl
    | arr es =>
      cases es with
      | nil => exact parseVal_arr_nil fuel rest
      | cons v1 vs =>
        have hjl : v1.jsonable = true ∧ jsonableList vs = true := by
          simpa only [JsVal.jsonable, jsonableList, Bool.and_eq_true] using hj
        simp only [fsize, fsizeElems] at hf
        obtain ⟨c0, t0, he0, hne1, -, hw0⟩ := stringify_head v1 hjl.1
        rw [show stringifyVal (.arr (v1 :: vs)) =
            '[' :: (stringifyVal v1 ++ (stringifyElems vs ++ [']'])) from rfl,
          List.cons_append,
          show (stringifyVal v1 ++ (stringifyElems vs ++ [']'])) ++ rest =
            stringifyVal v1 ++ (stringifyElems vs ++ (']' :: rest)) from by
            simp [List.append_assoc],
          he0, List.cons_append, parseVal_arr fuel c0 _ hne1 hw0, ← List.cons_append, ← he0,
          parseElems_stringify fuel (parseVal fuel) v1 vs rest ?_ ?_ ?_]
        · rfl
        · intro w hw rest2 hr2
          have hsz := elem_fsize_le (v1 :: vs) w hw
          simp only [fsizeElems] at hsz
          exact ih w rest2
            (jsonableList_mem (v1 :: vs) w
              (by simp only [jsonableList, Bool.and_eq_true]; exact ⟨hjl.1, hjl.2⟩) hw)
            (by omega) hr2
        · simp only [jsonableList, Bool.and_eq_true]
          exact ⟨hjl.1, hjl.2⟩
        · have := length_le_fsizeElems vs
          have := fsize_pos v1
          omega
    | obj fs =>
      have hjo : keysNodup (fs.map Prod.fst) = true ∧ jsonableFields fs = true := by
        simpa only [JsVal.jsonable, Bool.and_eq_true] using hj
      cases fs with
      | nil => exact parseVal_obj_nil fuel rest
      | cons kv fs2 =>
        obtain ⟨k1, v1⟩ := kv
        have hjf : v1.jsonable = true ∧ jsonableFields fs2 = true := by
          have h2 := hjo.2
          simp only [jsonableFields, Bool.and_eq_true] at h2
          exact h2
        have hv1nf : v1.isFunc = false := jsonable_not_func v1 hjf.1
        simp only [fsize, fsizeFields] at hf
        rw [show stringifyVal (.obj ((k1, v1) :: fs2)) =
            '\x7b' :: (dropLeadComma (stringifyFields ((k1, v1) :: fs2)) ++ ['\x7d']) from rfl,
          List.cons_append, stringifyFields_cons k1 v1 fs2 hv1nf,
          show ∀ X : List Char, dropLeadComma (',' :: X) = X from fun X => rfl,
          show ((strLitChars k1.data ++ (':' :: (stringifyVal v1 ++ stringifyFields fs2)))
                ++ ['\x7d']) ++ rest =
              '"' :: (escapeList k1.data ++
                ('"' :: (':' :: (stringifyVal v1 ++ (stringifyFields fs2 ++ ('\x7d' :: rest))))))
            from by
            simp [strLitChars, List.append_assoc],
          parseVal_obj fuel '"' _ (by decide) (by decide),
          show '"' :: (escapeList k1.data ++
              ('"' :: (':' :: (stringifyVal v1 ++ (stringifyFields fs2 ++ ('\x7d' :: rest)))))) =
            strLitChars k1.data ++
              (':' :: (stringifyVal v1 ++ (stringifyFields fs2 ++ ('\x7d' :: rest)))) from by
            simp [strLitChars, List.append_assoc],
          parseFields_stringify fuel (parseVal fuel) k1 v1 fs2 rest ?_ ?_ ?_]
        · show some (JsVal.obj (dedupFields ((k1, v1) :: fs2)), rest) =
            some (JsVal.obj ((k1, v1) :: fs2), rest)
          rw [dedupFields_self ((k1, v1) :: fs2) hjo.1]
        · intro p hp rest2 hr2
          have hsz := field_fsize_le ((k1, v1) :: fs2) p hp
          simp only [fsizeFields] at hsz
          exact ih p.2 rest2 (jsonableFields_mem ((k1, v1) :: fs2) p hjo.2 hp) (by omega) hr2
        · exact hjo.2
        · have := length_le_fsizeFields fs2
          have := fsize_pos v1
          omega
    | func => exact absurd hj (by decide)

theorem fsize_le_length_bound : ∀ N : Nat,
    (∀ v : JsVal, fsize v ≤ N → v.jsonable = true → fsize v ≤ (stringifyVal v).length) ∧
    (∀ vs : List JsVal, fsizeElems vs ≤ N → jsonableList vs = true →
      fsizeElems vs ≤ (stringifyElems vs).length) ∧
    (∀ fs : List (String × JsVal), fsizeFields fs ≤ N → jsonableFields fs = true →
      fsizeFields fs ≤ (stringifyFields fs).length) := by
  intro N
  induction N with
  | zero =>
    refine ⟨?_, ?_, ?_⟩
    · intro v h _
      have := fsize_pos v
      omega
    · intro vs h _
      cases vs with
      | nil => simp [fsizeElems]
      | cons v vs =>
        simp only [fsizeElems] at h
        have := fsize_pos v
        omega
    · intro fs h _
      cases fs with
      | nil => simp [fsizeFields]
      | cons kv fs =>
        simp only [fsizeFields] at h
        have := fsize_pos kv.2
        omega
  | succ N ih =>
    obtain ⟨ihA, ihB, ihC⟩ := ih
    refine ⟨?_, ?_, ?_⟩
    · intro v hN hj
      cases v with
      | null => simp [fsize, stringifyVal]
      | bool b => cases b <;> simp [fsize, stringifyVal]
      | num n =>
        cases n with
        | ofNat m =>
          obtain ⟨c, t, he, -, -⟩ := natStr_head m
          rw [show stringifyVal (.num (Int.ofNat m)) = natStr m from rfl, he]
          simp only [fsize, List.length_cons]
          omega
        | negSucc m =>
          rw [show stringifyVal (.num (Int.negSucc m)) = '-' :: natStr (m + 1) from rfl]
          simp only [fsize, List.length_cons]
          omega
      | numFrac l => exact absurd hj (by simp [JsVal.jsonable])
      | str s =>
        rw [show stringifyVal (.str s) = '"' :: (escapeList s.data ++ ['"']) from rfl]
        simp only [fsize, List.length_cons, List.length_append, List.length_singleton]
        omega
      | arr es =>
        cases es with
        | nil => simp [fsize, fsizeElems, stringifyVal]
        | cons v1 vs =>
          have hjl : v1.jsonable = true ∧ jsonableList vs = true := by
            simpa only [JsVal.jsonable, jsonableList, Bool.and_eq_true] using hj
          simp only [fsize, fsizeElems] at hN ⊢
          have hA := ihA v1 (by omega) hjl.1
          have hB := ihB vs (by have := fsize_pos v1; omega) hjl.2
          rw [show stringifyVal (.arr (v1 :: vs)) =
              '[' :: (stringifyVal v1 ++ (stringifyElems vs ++ [']'])) from rfl]
          simp only [List.length_cons, List.length_append, List.length_singleton]
          omega
      | obj fs =>
        have hjo : keysNodup (fs.map Prod.fst) = true ∧ jsonableFields fs = true := by
          simpa only [JsVal.jsonable, Bool.and_eq_true] using hj
        cases fs with
        | nil => simp [fsize, fsizeFields, stringifyVal]
        | cons kv fs2 =>
          obtain ⟨k1, v1⟩ := kv
          have hjf : v1.jsonable = true ∧ jsonableFields fs2 = true := by
            have h2 := hjo.2
            simp only [jsonableFields, Bool.and_eq_true] at h2
            exact h2
          have hv1nf : v1.isFunc = false := jsonable_not_func v1 hjf.1
          simp only [fsize, fsizeFields] at hN ⊢
          have hA := ihA v1 (by omega) hjf.1
          have hC := ihC fs2 (by have := fsize_pos v1; omega) hjf.2
          rw [show stringifyVal (.obj ((k1, v1) :: fs2)) =
              '\x7b' :: (dropLeadComma (stringifyFields ((k1, v1) :: fs2)) ++ ['\x7d']) from rfl,
            stringifyFields_cons k1 v1 fs2 hv1nf,
            show ∀ X : List Char, dropLeadComma (',' :: X) = X from fun X => rfl]
          simp only [strLitChars, List.length_cons, List.length_append, List.length_singleton]
          omega
      | func => exact absurd hj (by decide)
    · intro vs hN hjl
      cases vs with
      | nil => simp [fsizeElems]
      | cons v vs2 =>
        have hp : v.jsonable = true ∧ jsonableList vs2 = true := by
          simpa only [jsonableList, Bool.and_eq_true] using hjl
        simp only [fsizeElems] at hN ⊢
        have hA := ihA v (by omega) hp.1
        have hB := ihB vs2 (by have := fsize_pos v; omega) hp.2
        rw [show stringifyElems (v :: vs2) = ',' :: (stringifyVal v ++ stringifyElems vs2)
          from rfl]
        simp only [List.length_cons, List.length_append]
        omega
    · intro fs hN hjf
      cases fs with
      | nil => simp [fsizeFields]
      | cons kv fs2 =>
        obtain ⟨k, v⟩ := kv
        have hp : v.jsonable = true ∧ jsonableFields fs2 = true := by
          simpa only [jsonableFields, Bool.and_eq_true] using hjf
        have hvnf : v.isFunc = false := jsonable_not_func v hp.1
        simp only [fsizeFields] at hN ⊢
        have hA := ihA v (by omega) hp.1
        have hC := ihC fs2 (by have := fsize_pos v; omega) hp.2
        rw [stringifyFields_cons k v fs2 hvnf]
        simp only [strLitChars, List.length_cons, List.length_append, List.length_singleton]
        omega

theorem JSONparse_JSONstringify (v : JsVal) (hj : v.jsonable = true) :
    JSONparse (JSONstringify v) = some v := by
  unfold JSONparse JSONstringify
  rw [show (String.mk (stringifyVal v)).data = stringifyVal v from rfl]
  obtain ⟨c, t, he, -, -, hw⟩ := stringify_head v hj
  rw [he, skipWs_not_ws c t hw, ← he]
  have hb : fsize v ≤ (stringifyVal v).length :=
    (fsize_le_length_bound (fsize v)).1 v le_rfl hj
  have h := parseVal_stringify ((stringifyVal v).length + 1) v [] hj (by omega) rfl
  rw [List.append_nil] at h
  rw [h]
  rfl

/-! ### UTF-8 round trip -/

theorem utf8EncodeChar_lt256 (c : Char) : ∀ b ∈ utf8EncodeChar c, b < 256 := by
  intro b hb
  have hv := char_valid_nat c
  unfold utf8EncodeChar at hb
  by_cases h1 : c.toNat < 128
  · rw [if_pos h1] at hb
    simp only [List.mem_singleton] at hb
    omega
  · rw [if_neg h1] at hb
    by_cases h2 : c.toNat < 2048
    · rw [if_pos h2] at hb
      simp only [List.mem_cons, List.not_mem_nil, or_false] at hb
      rcases hb with rfl | rfl <;> omega
    · rw [if_neg h2] at hb
      by_cases h3 : c.toNat < 65536
      · rw [if_pos h3] at hb
        simp only [List.mem_cons, List.not_mem_nil, or_false] at hb
        rcases hb with rfl | rfl | rfl <;> omega
      · rw [if_neg h3] at hb
        simp only [List.mem_cons, List.not_mem_nil, or_false] at hb
        rcases hb with rfl | rfl | rfl | rfl <;> omega

theorem utf8Encode_lt256 : ∀ l : List Char, ∀ b ∈ utf8Encode l, b < 256 := by
  intro l
  induction l with
  | nil => intro b hb; cases hb
  | cons c cs ih =>
    intro b hb
    rw [show utf8Encode (c :: cs) = utf8EncodeChar c ++ utf8Encode cs from rfl] at hb
    rcases List.mem_append.mp hb with h | h
    · exact utf8EncodeChar_lt256 c b h
    · exact ih b h

theorem utf8EncodeChar_ne_nil (c : Char) : utf8EncodeChar c ≠ [] := by
  unfold utf8EncodeChar
  split_ifs <;> simp

theorem utf8Encode_length_ge : ∀ l : List Char, l.length ≤ (utf8Encode l).length := by
  intro l
  induction l with
  | nil => simp [utf8Encode]
  | cons c cs ih =>
    rw [show utf8Encode (c :: cs) = utf8EncodeChar c ++ utf8Encode cs from rfl]
    simp only [List.length_cons, List.length_append]
    have h1 : 1 ≤ (utf8EncodeChar c).length := by
      cases he : utf8EncodeChar c with
      | nil => exact absurd he (utf8EncodeChar_ne_nil c)
      | cons b bs => simp
    omega

theorem utf8DecodeStep_encodeChar (c : Char) (bs : List Nat) :
    utf8DecodeStep (utf8EncodeChar c ++ bs) = some (c, bs) := by
  have hv := char_valid_nat c
  unfold utf8EncodeChar
  by_cases h1 : c.toNat < 128
  · rw [if_pos h1, List.singleton_append]
    simp only [utf8DecodeStep]
    rw [if_pos h1, Char.ofNat_toNat]
  · rw [if_neg h1]
    by_cases h2 : c.toNat < 2048
    · rw [if_pos h2, List.cons_append, List.cons_append, List.nil_append]
      simp only [utf8DecodeStep]
      rw [if_neg (by omega), if_neg (by omega), if_pos (by omega)]
      simp only [utf8Decode2]
      rw [if_pos (by omega)]
      rw [show (192 + c.toNat / 64 - 192) * 64 + (128 + c.toNat % 64 - 128) = c.toNat from by
        omega]
      rw [Char.ofNat_toNat]
    · rw [if_neg h2]
      by_cases h3 : c.toNat < 65536
      · rw [if_pos h3, List.cons_append, List.cons_append, List.cons_append, List.nil_append]
        simp only [utf8DecodeStep]
        rw [if_neg (by omega), if_neg (by omega), if_neg (by omega), if_pos (by omega)]
        simp only [utf8Decode3]
        rw [if_pos (by omega)]
        rw [show (224 + c.toNat / 4096 - 224) * 4096 + (128 + c.toNat / 64 % 64 - 128) * 64 +
            (128 + c.toNat % 64 - 128) = c.toNat from by omega]
        rw [Char.ofNat_toNat]
      · rw [if_neg h3, List.cons_append, List.cons_append, List.cons_append, List.cons_append,
          List.nil_append]
        simp only [utf8DecodeStep]
        rw [if_neg (by omega), if_neg (by omega), if_neg (by omega), if_neg (by omega),
          if_pos (by omega)]
        simp only [utf8Decode4]
        rw [if_pos (by omega)]
        rw [show (240 + c.toNat / 262144 - 240) * 262144 + (128 + c.toNat / 4096 % 64 - 128) *
            4096 + (128 + c.toNat / 64 % 64 - 128) * 64 + (128 + c.toNat % 64 - 128) = c.toNat
          from by omega]
        rw [Char.ofNat_toNat]

theorem utf8DecodeLoop_encode :
    ∀ (l : List Char) (fuel : Nat), l.length ≤ fuel →
      utf8DecodeLoop fuel (utf8Encode l) = some l := by
  intro l
  induction l with
  | nil =>
    intro fuel _
    cases fuel <;> rfl
  | cons c cs ih =>
    intro fuel h
    cases fuel with
    | zero => simp at h
    | succ fuel =>
      obtain ⟨eb, ebs, he⟩ : ∃ eb ebs, utf8EncodeChar c = eb :: ebs := by
        cases he : utf8EncodeChar c with
        | nil => exact absurd he (utf8EncodeChar_ne_nil c)
        | cons b bs => exact ⟨b, bs, rfl⟩
      rw [show utf8Encode (c :: cs) = utf8EncodeChar c ++ utf8Encode cs from rfl, he,
        List.cons_append]
      simp only [utf8DecodeLoop]
      rw [← List.cons_append, ← he, utf8DecodeStep_encodeChar c (utf8Encode cs)]
      rw [show (match some (c, utf8Encode cs) with
          | none => none
          | some (c2, rest) => (utf8DecodeLoop fuel rest).map (fun l => c2 :: l)) =
          (utf8DecodeLoop fuel (utf8Encode cs)).map (fun l => c :: l) from rfl]
      rw [ih fuel (by simp only [List.length_cons] at h; omega)]
      rfl

theorem utf8Decode_encode (l : List Char) : utf8Decode (utf8Encode l) = some l := by
  unfold utf8Decode
  exact utf8DecodeLoop_encode l (utf8Encode l).length (utf8Encode_length_ge l)

/-! ### Base64 round trip -/

theorem base64Index_char : ∀ n, n < 64 → base64Index (base64Char n) = some n := by decide

theorem base64Char_ne_eq : ∀ n, n < 64 → ¬(base64Char n = '=') := by decide

theorem base64Decode_encode_bound :
    ∀ (N : Nat) (bs : List Nat), bs.length ≤ N → (∀ b ∈ bs, b < 256) →
      base64Decode (base64Encode bs) = some bs := by
  intro N
  induction N with
  | zero =>
    intro bs hlen _
    rcases bs with _ | ⟨b1, bs⟩
    · rfl
    · simp at hlen
  | succ N ih =>
    intro bs hlen hmem
    rcases bs with _ | ⟨b1, _ | ⟨b2, _ | ⟨b3, rest⟩⟩⟩
    · rfl
    · have hb1 : b1 < 256 := hmem b1 (by simp)
      rw [show base64Encode [b1] =
          [base64Char (b1 / 4), base64Char (b1 % 4 * 16), '=', '='] from rfl]
      simp only [base64Decode]
      rw [base64Index_char (b1 / 4) (by omega), base64Index_char (b1 % 4 * 16) (by omega)]
      simp +decide only [reduceIte, true_and, and_true]
      rw [if_pos (by omega : b1 % 4 * 16 % 16 = 0)]
      rw [show b1 / 4 * 4 + b1 % 4 * 16 / 16 = b1 from by omega]
    · have hb1 : b1 < 256 := hmem b1 (by simp)
      have hb2 : b2 < 256 := hmem b2 (by simp)
      rw [show base64Encode [b1, b2] =
          [base64Char (b1 / 4), base64Char (b1 % 4 * 16 + b2 / 16),
            base64Char (b2 % 16 * 4), '='] from rfl]
      simp only [base64Decode]
      rw [base64Index_char (b1 / 4) (by omega),
        base64Index_char (b1 % 4 * 16 + b2 / 16) (by omega)]
      simp +decide only [reduceIte, true_and, and_true]
      rw [if_neg (base64Char_ne_eq (b2 % 16 * 4) (by omega))]
      rw [base64Index_char (b2 % 16 * 4) (by omega)]
      simp +decide only [reduceIte, true_and, and_true]
      rw [if_pos (by omega : b2 % 16 * 4 % 4 = 0)]
      rw [show b1 / 4 * 4 + (b1 % 4 * 16 + b2 / 16) / 16 = b1 from by omega,
        show (b1 % 4 * 16 + b2 / 16) % 16 * 16 + b2 % 16 * 4 / 4 = b2 from by omega]
    · have hb1 : b1 < 256 := hmem b1 (by simp)
      have hb2 : b2 < 256 := hmem b2 (by simp)
      have hb3 : b3 < 256 := hmem b3 (by simp)
      rw [show base64Encode (b1 :: b2 :: b3 :: rest) =
          base64Char (b1 / 4) :: base64Char (b1 % 4 * 16 + b2 / 16) ::
            base64Char (b2 % 16 * 4 + b3 / 64) :: base64Char (b3 % 64) ::
              base64Encode rest from rfl]
      simp only [base64Decode]
      rw [base64Index_char (b1 / 4) (by omega),
        base64Index_char (b1 % 4 * 16 + b2 / 16) (by omega)]
      simp +decide only [reduceIte, true_and, and_true]
      rw [if_neg (base64Char_ne_eq (b2 % 16 * 4 + b3 / 64) (by omega))]
      rw [base64Index_char (b2 % 16 * 4 + b3 / 64) (by omega)]
      simp +decide only [reduceIte, true_and, and_true]
      rw [if_neg (base64Char_ne_eq (b3 % 64) (by omega))]
      rw [base64Index_char (b3 % 64) (by omega)]
      simp +decide only [reduceIte, true_and, and_true]
      rw [ih rest (by simp only [List.length_cons] at hlen; omega)
        (fun b hb => hmem b (by simp [hb]))]
      rw [show b1 / 4 * 4 + (b1 % 4 * 16 + b2 / 16) / 16 = b1 from by omega,
        show (b1 % 4 * 16 + b2 / 16) % 16 * 16 + (b2 % 16 * 4 + b3 / 64) / 4 = b2 from by omega,
        show (b2 % 16 * 4 + b3 / 64) % 4 * 64 + b3 % 64 = b3 from by omega]
      rfl

theorem base64Decode_encode (bs : List Nat) (h : ∀ b ∈ bs, b < 256) :
    base64Decode (base64Encode bs) = some bs :=
  base64Decode_encode_bound bs.length bs le_rfl h

/-! ### Transport round trip -/

theorem fromBase64ToUtf8_toBase64 (s : String) : fromBase64ToUtf8 (toBase64 s) = some s := by
  unfold toBase64 fromBase64ToUtf8
  rw [show (String.mk (base64Encode (utf8Encode s.data))).data =
    base64Encode (utf8Encode s.data) from rfl]
  rw [base64Decode_encode (utf8Encode s.data) (utf8Encode_lt256 s.data)]
  rw [show (match some (utf8Encode s.data) with
      | none => none
      | some bytes => (utf8Decode bytes).map String.mk) =
      (utf8Decode (utf8Encode s.data)).map String.mk from rfl]
  rw [utf8Decode_encode s.data]
  rfl

/-! ### Store-level helper lemmas -/

theorem applyOps_no_set (ops : List StoreOp) :
    ∀ s : SummarizableObject, (∀ op ∈ ops, op.isSet = false) → applyOps s ops = s := by
  induction ops with
  | nil => intro s _; rfl
  | cons op ops ih =>
    intro s hall
    have hop : applyOp s op = s := by
      cases op with
      | get key => rfl
      | set k v => exact absurd (hall _ (List.mem_cons_self _ _)) (by simp [StoreOp.isSet])
      | snapshot => rfl
    rw [show applyOps s (op :: ops) = applyOps (applyOp s op) ops from rfl, hop]
    exact ih s (fun op2 h2 => hall op2 (List.mem_cons_of_mem _ h2))

theorem contentsBlobOf_of_noProto (data : List (String × JsVal))
    (h : noProtoKey data = true) : contentsBlobOf data = data := by
  unfold contentsBlobOf
  rw [List.filter_eq_self]
  simp only [noProtoKey, List.all_eq_true] at h
  exact h

/-! ### The claims -/

/-- Counterexample for claim C1: the claim quantifies over every mapping of
JSON-representable pairs, but the mapping holding only `"__proto__" = 5` is
not reconstructed: `snapshot` copies the `Map` into a plain object literal,
where assigning the key `"__proto__"` hits the inherited prototype setter
and creates no own property, so the blob is the empty-object text and a
fresh store loads back empty. -/
theorem claim_C1_counterexample :
    (JsVal.obj [("__proto__", JsVal.num 5)]).jsonable = true ∧
    storedSnapshotBlob { data := [("__proto__", JsVal.num 5)], dirty := true } = "e30=" ∧
    SummarizableObject.loadCore SummarizableObject.create
        (storedSnapshotBlob { data := [("__proto__", JsVal.num 5)], dirty := true }) =
      .ok { data := [], dirty := false } ∧
    ([] : List (String × JsVal)) ≠ [("__proto__", JsVal.num 5)] :=
  ⟨rfl, rfl, rfl, by simp⟩

/-- Claim C1 as amended (round trip): for every mapping of
JSON-representable key/value pairs (no function references, distinct keys -
the `Map` invariant) none of whose keys is `"__proto__"` (the one key the
plain-object copy in `snapshot` silently drops), taking the blob produced
by `snapshot()`, transport-encoding it as the storage layer does (base64 of
the UTF-8 JSON text) and invoking `loadCore` on a fresh store reconstructs
exactly the same mapping. -/
theorem claim_C1_round_trip (s : SummarizableObject)
    (h : (JsVal.obj s.data).jsonable = true) (hp : noProtoKey s.data = true) :
    SummarizableObject.loadCore SummarizableObject.create (storedSnapshotBlob s) =
      .ok { data := s.data, dirty := false } := by
  have hnodup : keysNodup (s.data.map Prod.fst) = true := by
    have h2 := h
    simp only [JsVal.jsonable, Bool.and_eq_true] at h2
    exact h2.1
  have h1 : fromBase64ToUtf8 (storedSnapshotBlob s) =
      some (JSONstringify (JsVal.obj s.data)) := by
    unfold storedSnapshotBlob
    rw [show ITree.headerContents (SummarizableObject.snapshot s) =
      JSONstringify (JsVal.obj (contentsBlobOf s.data)) from rfl,
      contentsBlobOf_of_noProto s.data hp]
    exact fromBase64ToUtf8_toBase64 _
  have h2 : JSONparse (JSONstringify (JsVal.obj s.data)) = some (JsVal.obj s.data) :=
    JSONparse_JSONstringify _ h
  simp only [SummarizableObject.loadCore, h1, h2, objectEntries]
  show (Except.ok { data := s.data.foldl (fun d kv => mapSet d kv.1 kv.2) [], dirty := false } :
      Except LoadError SummarizableObject) =
    Except.ok { data := s.data, dirty := false }
  rw [foldl_mapSet_append s.data [] hnodup (fun p _ => rfl), List.nil_append]

/-- Witness for claim C1 as amended: the spec's end-to-end scenario, a
store holding `count = 3` and `name = "a"`. -/
theorem claim_C1_witness :
    (JsVal.obj [("count", JsVal.num 3), ("name", JsVal.str "a")]).jsonable = true ∧
    noProtoKey [("count", JsVal.num 3), ("name", JsVal.str "a")] = true ∧
    SummarizableObject.loadCore SummarizableObject.create
        (storedSnapshotBlob
          { data := [("count", JsVal.num 3), ("name", JsVal.str "a")], dirty := true }) =
      .ok { data := [("count", JsVal.num 3), ("name", JsVal.str "a")], dirty := false } :=
  ⟨rfl, rfl, claim_C1_round_trip
    { data := [("count", JsVal.num 3), ("name", JsVal.str "a")], dirty := true } rfl rfl⟩

/-- Counterexample for claim C2: for the store holding only
`"__proto__" = 5` the single entry's contents is the empty-object text, not
the JSON text of the entire mapping - the plain-object copy in `snapshot`
drops the `"__proto__"` key (assigning it on an object literal hits the
inherited prototype setter and creates no own property). -/
theorem claim_C2_counterexample :
    (SummarizableObject.snapshot
        { data := [("__proto__", JsVal.num 5)], dirty := false }).entries.map
      (fun e => e.value.contents) = ["\x7b\x7d"] ∧
    JSONstringify (JsVal.obj [("__proto__", JsVal.num 5)]) ≠ "\x7b\x7d" :=
  ⟨rfl, by decide⟩

/-- Claim C2 as amended (snapshot shape): for every store state `snapshot()`
returns a tree with exactly one entry - path `"header"` (the
`snapshotFileName` constant), `File` mode, `"Blob"` type, encoding tag
`"utf-8"`, contents the JSON text of the plain-object copy of the mapping
(which drops a `"__proto__"` entry) - and a `null` id; whenever no key is
`"__proto__"`, that contents is the JSON text of the whole mapping. -/
theorem claim_C2_snapshot_shape (s : SummarizableObject) :
    (SummarizableObject.snapshot s).entries =
      [{ mode := FileMode.File, path := snapshotFileName, type := "Blob",
         value := { contents := JSONstringify (JsVal.obj (contentsBlobOf s.data)),
                    encoding := "utf-8" } }] ∧
    snapshotFileName = "header" ∧
    (SummarizableObject.snapshot s).id = none ∧
    (noProtoKey s.data = true →
      ITree.headerContents (SummarizableObject.snapshot s) =
        JSONstringify (JsVal.obj s.data)) := by
  refine ⟨rfl, rfl, rfl, fun hp => ?_⟩
  show JSONstringify (JsVal.obj (contentsBlobOf s.data)) = JSONstringify (JsVal.obj s.data)
  rw [contentsBlobOf_of_noProto s.data hp]

/-- Witness for claim C2 as amended: on a store holding `a = 1` the blob
contents is the JSON text of the whole mapping. -/
theorem claim_C2_witness :
    noProtoKey [("a", JsVal.num 1)] = true ∧
    ITree.headerContents (SummarizableObject.snapshot
        { data := [("a", JsVal.num 1)], dirty := true }) =
      JSONstringify (JsVal.obj [("a", JsVal.num 1)]) :=
  ⟨rfl,
    (claim_C2_snapshot_shape { data := [("a", JsVal.num 1)], dirty := true }).2.2.2 rfl⟩

/-- Counterexample for claim C3: `set` with a function-reference value does
not fail - it returns normally, changes the mapping, and raises the dirty
flag, contradicting "fails synchronously ... leaves both the mapping and
the dirty flag unchanged". -/
theorem claim_C3_counterexample :
    (SummarizableObject.set SummarizableObject.create "k" JsVal.func).data =
      [("k", JsVal.func)] ∧
    [("k", JsVal.func)] ≠ ([] : List (String × JsVal)) ∧
    (SummarizableObject.set SummarizableObject.create "k" JsVal.func).dirty = true ∧
    SummarizableObject.create.dirty = false :=
  ⟨rfl, by simp, rfl, rfl⟩

/-- Claim C3 as amended: `set` performs no runtime validation - for every
store, key and value (JSON-representable or not) it stores the value and
raises the dirty flag; a non-representable (function) value is then
silently omitted from the snapshot text (the store snapshots like an empty
one) instead of failing at `set` time. -/
theorem claim_C3_amended (s : SummarizableObject) (key : String) (value : JsVal) (d : Bool) :
    (SummarizableObject.set s key value).data = mapSet s.data key value ∧
    (SummarizableObject.set s key value).dirty = true ∧
    SummarizableObject.snapshot { data := [(key, JsVal.func)], dirty := d } =
      SummarizableObject.snapshot { data := [], dirty := d } := by
  refine ⟨rfl, rfl, ?_⟩
  by_cases hk : key = "__proto__"
  · subst hk; rfl
  · have hcb : contentsBlobOf [(key, JsVal.func)] = [(key, JsVal.func)] := by
      simp [contentsBlobOf, hk]
    unfold SummarizableObject.snapshot
    rw [hcb]
    rfl

/-- Claim C4 (reject foreign mutation): for every change-operation message,
local flag and store state, `processCore` fails with the protocol-violation
error thrown by the source (`"Summarizable object should not generate any
ops."`); no updated state is ever produced, so the mapping is unchanged. -/
theorem claim_C4_ops_rejected (message : ISequencedDocumentMessage) (isLocal : Bool)
    (s : SummarizableObject) :
    SummarizableObject.processCore s message isLocal =
      .error "Summarizable object should not generate any ops." := rfl

/-- Counterexample for claim C6: loading the blob of the empty object
`"e30="` (base64 of the text consisting of an open and a close brace) into
a store already holding `a = 1` leaves `a = 1` in the mapping - the mapping
does not equal the (empty) set of parsed pairs, because `loadCore` inserts
into the existing map rather than replacing it. -/
theorem claim_C6_counterexample :
    fromBase64ToUtf8 "e30=" = some (String.mk ['\x7b', '\x7d']) ∧
    JSONparse (String.mk ['\x7b', '\x7d']) = some (JsVal.obj []) ∧
    SummarizableObject.loadCore { data := [("a", JsVal.num 1)], dirty := false } "e30=" =
      .ok { data := [("a", JsVal.num 1)], dirty := false } ∧
    [("a", JsVal.num 1)] ≠ ([] : List (String × JsVal)) :=
  ⟨rfl, rfl, rfl, by simp⟩

/-- Claim C6 as amended: for every successfully decoded and parsed object
blob, `loadCore` sets each parsed pair into the existing mapping
(overwriting per key, dirty flag untouched); on a fresh (empty) store -
the documented contract for `load` - the mapping afterwards equals exactly
the parsed pairs. -/
theorem claim_C6_amended (rawContent text : String) (fs : List (String × JsVal))
    (s : SummarizableObject)
    (h1 : fromBase64ToUtf8 rawContent = some text)
    (h2 : JSONparse text = some (JsVal.obj fs)) :
    SummarizableObject.loadCore s rawContent =
      .ok { data := fs.foldl (fun d kv => mapSet d kv.1 kv.2) s.data, dirty := s.dirty } ∧
    (s.data = [] → keysNodup (fs.map Prod.fst) = true →
      SummarizableObject.loadCore s rawContent = .ok { data := fs, dirty := s.dirty }) := by
  have hmain : SummarizableObject.loadCore s rawContent =
      .ok { data := fs.foldl (fun d kv => mapSet d kv.1 kv.2) s.data, dirty := s.dirty } := by
    simp only [SummarizableObject.loadCore, h1, h2, objectEntries]
  refine ⟨hmain, fun hempty hnodup => ?_⟩
  rw [hmain, show fs.foldl (fun d kv => mapSet d kv.1 kv.2) s.data =
      fs.foldl (fun d kv => mapSet d kv.1 kv.2) [] from by rw [hempty],
    foldl_mapSet_append fs [] hnodup (fun p _ => rfl), List.nil_append]

/-- Witness for claim C6 as amended: `"eyJhIjoxfQ=="` is the transport
encoding of the object text mapping `a` to `1`; loading it into a fresh
store yields exactly that mapping. -/
theorem claim_C6_witness :
    fromBase64ToUtf8 "eyJhIjoxfQ==" =
      some (String.mk ['\x7b', '"', 'a', '"', ':', '1', '\x7d']) ∧
    JSONparse (String.mk ['\x7b', '"', 'a', '"', ':', '1', '\x7d']) =
      some (JsVal.obj [("a", JsVal.num 1)]) ∧
    SummarizableObject.loadCore SummarizableObject.create "eyJhIjoxfQ==" =
      .ok { data := [("a", JsVal.num 1)], dirty := false } :=
  ⟨rfl, rfl,
    (claim_C6_amended "eyJhIjoxfQ==" (String.mk ['\x7b', '"', 'a', '"', ':', '1', '\x7d'])
      [("a", JsVal.num 1)] SummarizableObject.create rfl rfl).2 rfl rfl⟩

/-- Claim C7 (dirty monotonicity): a freshly constructed store is
non-dirty, and after any operation the dirty flag is the old flag or-ed
with "the operation was a successful `set`" - so `set` always raises it and
`get`/`snapshot` (which do not touch the state) never clear it. -/
theorem claim_C7_dirty_monotone :
    SummarizableObject.create.dirty = false ∧
    (∀ (s : SummarizableObject) (op : StoreOp),
      (applyOp s op).dirty = (s.dirty || op.isSet)) := by
  refine ⟨rfl, fun s op => ?_⟩
  cases op with
  | get key => simp [applyOp, StoreOp.isSet]
  | set k v => simp [applyOp, StoreOp.isSet, SummarizableObject.set]
  | snapshot => simp [applyOp, StoreOp.isSet]

/-- Claim C8 (idempotent snapshot): snapshotting twice - with any sequence
of non-`set` operations (further snapshots, reads) in between - yields
byte-identical blob contents, because no non-`set` operation changes the
state and the serialization is a pure function of the mapping. -/
theorem claim_C8_idempotent (s : SummarizableObject) (ops : List StoreOp)
    (h : ∀ op ∈ ops, op.isSet = false) :
    ITree.headerContents (SummarizableObject.snapshot (applyOps s ops)) =
      ITree.headerContents (SummarizableObject.snapshot s) := by
  rw [applyOps_no_set ops s h]

/-- Witness for claim C8: a snapshot followed by a read between the two
snapshots of a fresh store. -/
theorem claim_C8_witness :
    (∀ op ∈ [StoreOp.snapshot, StoreOp.get "k"], op.isSet = false) ∧
    ITree.headerContents (SummarizableObject.snapshot
        (applyOps SummarizableObject.create [StoreOp.snapshot, StoreOp.get "k"])) =
      ITree.headerContents (SummarizableObject.snapshot SummarizableObject.create) := by
  have hops : ∀ op ∈ [StoreOp.snapshot, StoreOp.get "k"], op.isSet = false := by
    intro op hop
    rcases List.mem_cons.mp hop with rfl | hop
    · rfl
    · rcases List.mem_cons.mp hop with rfl | hop
      · rfl
      · cases hop
  exact ⟨hops, claim_C8_idempotent SummarizableObject.create _ hops⟩

/-- Claim C9 (empty snapshot): a freshly constructed store's snapshot tree
has exactly one entry, whose blob contents is exactly the two-character
JSON text of the empty object. -/
theorem claim_C9_empty_snapshot :
    (SummarizableObject.snapshot SummarizableObject.create).entries.map
      (fun e => e.value.contents) = ["\x7b\x7d"] := rfl

/-- Claim C10 (get/set frame): after `set key value`, `get key` returns the
value and `get other` is unchanged for every other key; `get` is a total
pure function returning `none` (JavaScript `undefined`) for absent keys,
never failing. -/
theorem claim_C10_get_set_frame (s : SummarizableObject) (key : String) (value : JsVal)
    (other : String) :
    SummarizableObject.get (SummarizableObject.set s key value) key = some value ∧
    (¬ other = key →
      SummarizableObject.get (SummarizableObject.set s key value) other =
        SummarizableObject.get s other) :=
  ⟨mapGet_mapSet_same s.data key value,
    fun h => mapGet_mapSet_other s.data key value other h⟩

/-- Witness for claim C10: setting `b` on a store holding `a = 1` makes
`get "b"` return the new value and leaves `get "a"` unchanged. -/
theorem claim_C10_witness :
    ¬ "a" = "b" ∧
    SummarizableObject.get (SummarizableObject.set
        { data := [("a", JsVal.num 1)], dirty := false } "b" (JsVal.num 2)) "b" =
      some (JsVal.num 2) ∧
    SummarizableObject.get (SummarizableObject.set
        { data := [("a", JsVal.num 1)], dirty := false } "b" (JsVal.num 2)) "a" =
      some (JsVal.num 1) := by
  refine ⟨by decide, (claim_C10_get_set_frame
    { data := [("a", JsVal.num 1)], dirty := false } "b" (JsVal.num 2) "a").1, ?_⟩
  rw [(claim_C10_get_set_frame { data := [("a", JsVal.num 1)], dirty := false } "b"
    (JsVal.num 2) "a").2 (by decide)]
  rfl
